import Mathlib

/-
Shallow embedding of the contest-audio-browser application (src/app.py).

Times in seconds are modelled as rationals (the source uses floating-point
seconds; all the algorithms under scrutiny are pure arithmetic on those
values, and the spec speaks of exact real arithmetic).  Text is modelled at
the character-list level: a file is a `List Char`, a line is a `List Char`
with no newline, a document is a list of lines.  Python `datetime` values
(minute precision, as in the source) are modelled by the `DateTime`
structure below, with subtraction via a proleptic-Gregorian day count.
-/

set_option maxRecDepth 4000

/-- Characters Python's `str.split()` / `str.strip()` treat as whitespace
(the ASCII ones; the inputs at hand are ASCII). -/
def isWs (c : Char) : Bool :=
  c = ' ' || c = '\t' || c = '\n' || c = '\r' || c = '\x0b' || c = '\x0c'

/-- Accumulator-style whitespace tokenizer; `acc` holds the (reversed)
current partial token. -/
def tokensAux : List Char → List Char → List (List Char)
  | [], acc => if acc.isEmpty then [] else [acc.reverse]
  | c :: cs, acc =>
    if isWs c then
      if acc.isEmpty then tokensAux cs [] else acc.reverse :: tokensAux cs []
    else
      tokensAux cs (c :: acc)

/-- Python `s.split()`: the maximal runs of non-whitespace characters of `s`. -/
def tokens (l : List Char) : List (List Char) := tokensAux l []

/-- Python `s.rstrip()` (for whitespace): drop trailing whitespace. -/
def dropTrailingWs (l : List Char) : List Char := (l.reverse.dropWhile isWs).reverse

/-- Python `s.strip()`: drop leading and trailing whitespace. -/
def trimWs (l : List Char) : List Char := dropTrailingWs (l.dropWhile isWs)

/-- The decimal digit character for `n % 10`. -/
def digitChar (n : Nat) : Char :=
  if n % 10 = 0 then '0'
  else if n % 10 = 1 then '1'
  else if n % 10 = 2 then '2'
  else if n % 10 = 3 then '3'
  else if n % 10 = 4 then '4'
  else if n % 10 = 5 then '5'
  else if n % 10 = 6 then '6'
  else if n % 10 = 7 then '7'
  else if n % 10 = 8 then '8'
  else '9'

def isDigitB (c : Char) : Bool := decide (48 ≤ c.toNat) && decide (c.toNat ≤ 57)

def digitVal (c : Char) : Nat := c.toNat - 48

/-- A wall-clock timestamp to the minute (Python `datetime` with zero
seconds, as produced everywhere in src/app.py). -/
structure DateTime where
  year : Nat
  month : Nat
  day : Nat
  hour : Nat
  minute : Nat
deriving DecidableEq

def isLeapYear (y : Nat) : Bool := y % 4 = 0 && (y % 100 ≠ 0 || y % 400 = 0)

def daysInMonth (y m : Nat) : Nat :=
  if m = 2 then (if isLeapYear y then 29 else 28)
  else if m = 4 || m = 6 || m = 9 || m = 11 then 30
  else 31

/-- The day token of Python `strptime` `%d` (regex `3[01]|[12]\d|0[1-9]|[1-9]`,
here at the end of the string): a 2-digit value 01..31 or a 1-digit 1..9. -/
def parseDayTok : List Char → Option Nat
  | [a, b] =>
    if isDigitB a && isDigitB b
        && decide (1 ≤ 10 * digitVal a + digitVal b)
        && decide (10 * digitVal a + digitVal b ≤ 31) then
      some (10 * digitVal a + digitVal b)
    else none
  | [a] => if isDigitB a && decide (1 ≤ digitVal a) then some (digitVal a) else none
  | _ => none

/-- `%m` two-digit alternative (`1[0-2]|0[1-9]`) followed by `-%d`. -/
def parseMD2 : List Char → Option (Nat × Nat)
  | m1 :: m2 :: sep :: dr =>
    if decide (sep = '-') && isDigitB m1 && isDigitB m2
        && decide (1 ≤ 10 * digitVal m1 + digitVal m2)
        && decide (10 * digitVal m1 + digitVal m2 ≤ 12) then
      (parseDayTok dr).map fun d => (10 * digitVal m1 + digitVal m2, d)
    else none
  | _ => none

/-- `%m` one-digit alternative (`[1-9]`) followed by `-%d`. -/
def parseMD1 : List Char → Option (Nat × Nat)
  | m1 :: sep :: dr =>
    if decide (sep = '-') && isDigitB m1 && decide (1 ≤ digitVal m1) then
      (parseDayTok dr).map fun d => (digitVal m1, d)
    else none
  | _ => none

/-- Month-day part of `strptime "%Y-%m-%d"`: the two-digit month alternative
is preferred, with regex-style backtracking to the one-digit one. -/
def parseMonthDay (l : List Char) : Option (Nat × Nat) :=
  (parseMD2 l).orElse fun _ => parseMD1 l

/-- Python `strptime(s, "%Y-%m-%d")` on a whitespace-free token: exactly four
year digits, `-`, month, `-`, day, end of string.  (Range validation against
the calendar happens in `strptimeDateHM`, as in `datetime.__init__`.) -/
def parseDate : List Char → Option (Nat × Nat × Nat)
  | y1 :: y2 :: y3 :: y4 :: sep :: rest =>
    if decide (sep = '-') && isDigitB y1 && isDigitB y2 && isDigitB y3 && isDigitB y4 then
      (parseMonthDay rest).map fun p =>
        (1000 * digitVal y1 + 100 * digitVal y2 + 10 * digitVal y3 + digitVal y4, p.1, p.2)
    else none
  | _ => none

/-- Python `strptime(s, "%H%M")` on a whitespace-free token: `%H` is
`2[0-3]|[0-1]\d|\d` (two digits preferred), `%M` is `[0-5]\d|\d`, with
regex backtracking, and the whole token must be consumed. -/
def parseTimeHM : List Char → Option (Nat × Nat)
  | [a, b, c, d] =>
    if isDigitB a && isDigitB b && isDigitB c && isDigitB d then
      if decide (10 * digitVal a + digitVal b ≤ 23) && decide (digitVal c ≤ 5) then
        some (10 * digitVal a + digitVal b, 10 * digitVal c + digitVal d)
      else none
    else none
  | [a, b, c] =>
    if isDigitB a && isDigitB b && isDigitB c then
      if decide (10 * digitVal a + digitVal b ≤ 23) then
        some (10 * digitVal a + digitVal b, digitVal c)
      else if decide (digitVal b ≤ 5) then
        some (digitVal a, 10 * digitVal b + digitVal c)
      else none
    else none
  | [a, b] => if isDigitB a && isDigitB b then some (digitVal a, digitVal b) else none
  | _ => none

/-- app.py:142 — `datetime.strptime(date + " " + time, "%Y-%m-%d %H%M")`
for whitespace-free `date`/`time` tokens, including the `datetime`
constructor's range validation (year ≥ 1, day within the month). -/
def strptimeDateHM (dateTok timeTok : List Char) : Option DateTime := do
  let (y, m, d) ← parseDate dateTok
  let (h, mi) ← parseTimeHM timeTok
  if decide (1 ≤ y) && decide (d ≤ daysInMonth y m) then
    some ⟨y, m, d, h, mi⟩
  else none

/-- One logged contact: the nine data fields parsed from a `QSO:` line
(src/app.py:144-154); the date and time tokens combine into `datetime`. -/
structure Qso where
  datetime : DateTime
  freq : List Char
  mode : List Char
  mycall : List Char
  rst_s : List Char
  exch_s : List Char
  hiscall : List Char
  rst_r : List Char
  exch_r : List Char
deriving DecidableEq

inductive ParseErr where
  | malformedTimestamp
deriving DecidableEq

def qsoMarker : List Char := ['Q', 'S', 'O', ':']

/-- app.py:125 — `stripped.startswith("QSO:")`. -/
def isQsoLine (raw : List Char) : Bool := qsoMarker.isPrefixOf (trimWs raw)

/-- The record built from the positional tokens of a `QSO:` line
(app.py:131-154). -/
def qsoOfParts (dt : DateTime) (parts : List (List Char)) : Qso :=
  ⟨dt, parts.getD 1 [], parts.getD 2 [], parts.getD 5 [], parts.getD 6 [],
   parts.getD 7 [], parts.getD 8 [], parts.getD 9 [], parts.getD 10 []⟩

/-- The event (if any) contributed by a single line of the log
(the body of the `QSO:` branch of app.py:125-154). -/
def line_event (raw : List Char) : Option Qso :=
  if isQsoLine raw then
    let parts := tokens (trimWs raw)
    if parts.length < 11 then none
    else
      (strptimeDateHM (parts.getD 3 []) (parts.getD 4 [])).map fun dt => qsoOfParts dt parts
  else none

/-- app.py:115-160 — `_parse_cabrillo`, over the list of (newline-free)
lines of the log file.  `inQso` is the `in_qso` flag; a malformed timestamp
on a ≥ 11-token `QSO:` line raises (aborts the whole parse). -/
def parseCabrilloLines : List (List Char) → Bool → Except ParseErr (List (List Char) × List Qso)
  | [], _ => .ok ([], [])
  | raw :: rest, inQso =>
    if isQsoLine raw then
      let parts := tokens (trimWs raw)
      if parts.length < 11 then parseCabrilloLines rest true
      else
        match strptimeDateHM (parts.getD 3 []) (parts.getD 4 []) with
        | none => .error .malformedTimestamp
        | some dt =>
          match parseCabrilloLines rest true with
          | .error e => .error e
          | .ok (hs, qs) => .ok (hs, qsoOfParts dt parts :: qs)
    else
      match parseCabrilloLines rest inQso with
      | .error e => .error e
      | .ok (hs, qs) => if inQso then .ok (hs, qs) else .ok (raw :: hs, qs)

def parse_cabrillo (ls : List (List Char)) : Except ParseErr (List (List Char) × List Qso) :=
  parseCabrilloLines ls false

/-- Python `"\n".join(lines)`. -/
def joinLines : List (List Char) → List Char
  | [] => []
  | [l] => l
  | l :: l2 :: ls => l ++ '\n' :: joinLines (l2 :: ls)

/-- Splitting a text into its newline-separated lines (Python text-mode
line iteration after `rstrip("\n")`). -/
def splitLines : List Char → List (List Char)
  | [] => [[]]
  | c :: rest =>
    if c = '\n' then [] :: splitLines rest
    else
      match splitLines rest with
      | [] => [[c]]
      | l :: ls => (c :: l) :: ls

/-- `_parse_cabrillo` applied to a whole text. -/
def parse_cabrillo_text (t : List Char) : Except ParseErr (List (List Char) × List Qso) :=
  parse_cabrillo (splitLines t)

/-- Python `f"{t:>n}"` for a string valued `t`. -/
def rjust (t : List Char) (n : Nat) : List Char := List.replicate (n - t.length) ' ' ++ t

/-- Python `f"{t:<n}"`. -/
def ljust (t : List Char) (n : Nat) : List Char := t ++ List.replicate (n - t.length) ' '

def pad2 (n : Nat) : List Char := [digitChar (n / 10), digitChar n]

def pad4 (n : Nat) : List Char :=
  [digitChar (n / 1000), digitChar (n / 100), digitChar (n / 10), digitChar n]

/-- `strftime("%Y-%m-%d")` (year zero-padded to four digits). -/
def fmtDate (t : DateTime) : List Char :=
  pad4 t.year ++ '-' :: pad2 t.month ++ '-' :: pad2 t.day

/-- `strftime("%H%M")`. -/
def fmtTimeHM (t : DateTime) : List Char := pad2 t.hour ++ pad2 t.minute

/-- app.py:270-274 — the fixed-width `QSO:` line of `build_cabrillo_subset`
(`"QSO: "` then the padded fields separated by single spaces). -/
def format_qso_line (q : Qso) : List Char :=
  qsoMarker ++ [' '] ++ rjust q.freq 5 ++ [' '] ++ rjust q.mode 2 ++ [' ']
    ++ fmtDate q.datetime ++ [' '] ++ fmtTimeHM q.datetime ++ [' ']
    ++ ljust q.mycall 13 ++ [' '] ++ rjust q.rst_s 3 ++ [' '] ++ ljust q.exch_s 6 ++ [' ']
    ++ ljust q.hiscall 13 ++ [' '] ++ rjust q.rst_r 3 ++ [' '] ++ ljust q.exch_r 6

def startOfLogMarker : List Char := "START-OF-LOG".data

/-- app.py:260-278 — `build_cabrillo_subset`: headers (with a synthesized
`START-OF-LOG: 3.0` when absent), a blank separator line, one formatted
line per selected event, and a closing `END-OF-LOG:`, joined by newlines. -/
def build_cabrillo_subset (header_lines : List (List Char)) (selected : List Qso) : List Char :=
  let lines0 :=
    if header_lines.any (fun l => startOfLogMarker.isPrefixOf l) then header_lines
    else "START-OF-LOG: 3.0".data :: header_lines
  joinLines (lines0 ++ [[]] ++ selected.map format_qso_line ++ ["END-OF-LOG:".data])

/-- One physical audio file's placement in the logical timeline
(an entry of `audio_index`; `stop` models the dict key `"end"`). -/
structure Seg where
  filename : String
  start : ℚ
  stop : ℚ
deriving DecidableEq

def dummySeg : Seg := ⟨"", 0, 0⟩

/-- The forward accumulation pass of `_build_audio_index` (app.py:98-109),
starting the running total at `s`. -/
def buildIndexFrom (s : ℚ) : List (String × ℚ) → List Seg
  | [] => []
  | (name, dur) :: rest => ⟨name, s, s + dur⟩ :: buildIndexFrom (s + dur) rest

/-- app.py:92-111 — `_build_audio_index`, given the sorted file names with
their decoded durations (the directory listing, sorting and MP3 decoding
are external I/O). -/
def build_audio_index (files : List (String × ℚ)) : List Seg := buildIndexFrom 0 files

/-- `audio_index[-1]["end"]`, or 0 for an empty index. -/
def last_end (idx : List Seg) : ℚ := (idx.getLast?).elim 0 (·.stop)

/-- app.py:195-201 — the linear scan for the segment whose half-open
`[start, end)` interval contains `x`, paired with the intra-file offset. -/
def resolve (idx : List Seg) (x : ℚ) : Option (String × ℚ) :=
  (idx.find? fun f => decide (f.start ≤ x) && decide (x < f.stop)).map
    fun f => (f.filename, x - f.start)

/-- Python `int()` on a rational value: truncation toward zero. -/
def pyInt (q : ℚ) : ℤ := Int.tdiv q.num (q.den : ℤ)

/-- Python `round` to an integer: round half to even. -/
def roundHalfEven (q : ℚ) : ℤ :=
  if q - ⌊q⌋ < 1 / 2 then ⌊q⌋
  else if 1 / 2 < q - ⌊q⌋ then ⌊q⌋ + 1
  else if ⌊q⌋ % 2 = 0 then ⌊q⌋ else ⌊q⌋ + 1

/-- Python `round(q, 3)`. -/
def round3 (q : ℚ) : ℚ := (roundHalfEven (q * 1000) : ℚ) / 1000

/-- Hinnant's days-from-civil formula for the proleptic Gregorian calendar
(Python `date.toordinal` up to a constant), used to model subtraction of
`datetime` values. -/
def daysFromCivil (y m d : ℤ) : ℤ :=
  let y2 := if m ≤ 2 then y - 1 else y
  let era := (if 0 ≤ y2 then y2 else y2 - 399) / 400
  let yoe := y2 - era * 400
  let doy := (153 * ((m + 9) % 12) + 2) / 5 + d - 1
  let doe := yoe * 365 + yoe / 4 - yoe / 100 + doy
  era * 146097 + doe - 719468

def toSeconds (t : DateTime) : ℤ :=
  86400 * daysFromCivil t.year t.month t.day + 3600 * t.hour + 60 * t.minute

/-- `(a - b).total_seconds()` for two minute-precision datetimes. -/
def secondsBetween (a b : DateTime) : ℚ := ((toSeconds a - toSeconds b : ℤ) : ℚ)

/-- A parsed event enriched by `_attach_audio_positions` (app.py:203-206). -/
structure AnnQso extends Qso where
  index : Nat
  abs_rec_second : ℚ
  file : Option String
  file_offset : ℚ
deriving DecidableEq

/-- app.py:164-206 — `_attach_audio_positions`.  (The code returns early,
annotating nothing, when the audio index is empty; `_build` raises before
that can happen, so the body below is the reachable path.  With an empty
index `last_end` is 0 and the non-positive-duration branch is taken.) -/
def attach_audio_positions (idx : List Seg) (rec_start contest_start : DateTime) (pre : ℚ)
    (qsos : List Qso) : List AnnQso :=
  let total := last_end idx
  let offset_rec_vs_contest := secondsBetween contest_start rec_start
  qsos.enum.map fun p =>
    let abs_rec := offset_rec_vs_contest + secondsBetween p.2.datetime contest_start
    let start_play := abs_rec - pre
    if total ≤ 0 then
      ⟨p.2, p.1 + 1, abs_rec, none, round3 0⟩
    else
      match resolve idx (max 0 (min start_play (total - 1 / 1000))) with
      | none => ⟨p.2, p.1 + 1, abs_rec, none, round3 0⟩
      | some (fn, off) => ⟨p.2, p.1 + 1, abs_rec, some fn, round3 off⟩

/-- One appended `audio[local_start:local_end]` slice of
`build_audio_window`; bounds in milliseconds within the named file. -/
structure Slice where
  filename : String
  local_start : ℤ
  local_stop : ℤ
deriving DecidableEq

/-- `len(combined)` in milliseconds: each appended pydub slice
`audio[a:b]` (with `0 ≤ a ≤ b ≤` file length) contributes `b - a`. -/
def slicesLen (ss : List Slice) : ℤ := (ss.map fun s => s.local_stop - s.local_start).sum

/-- app.py:218-256 — `build_audio_window`.  The output models the ordered
concatenation of per-file millisecond slices (decoding and re-encoding are
external collaborators). -/
def build_audio_window (idx : List Seg) (start_s0 end_s0 : ℚ) : Except String (List Slice) :=
  if idx.isEmpty then .error "No audio index for contest"
  else
    let total := last_end idx
    let start_s := max 0 start_s0
    let end_s := min total end_s0
    if end_s ≤ start_s then .error "Requested audio window is empty or out of range."
    else
      let start_ms := pyInt (start_s * 1000)
      let end_ms := pyInt (end_s * 1000)
      let combined := idx.filterMap fun f =>
        let file_start_ms := pyInt (f.start * 1000)
        let file_stop_ms := pyInt (f.stop * 1000)
        let overlap_start := max start_ms file_start_ms
        let overlap_stop := min end_ms file_stop_ms
        if overlap_stop ≤ overlap_start then none
        else some ⟨f.filename, overlap_start - file_start_ms, overlap_stop - file_start_ms⟩
      if slicesLen combined = 0 then .error "No audio in requested window."
      else .ok combined

/-- app.py:402-407 — the span of the selected events: the empty-selection
check, then `min(centers) - pre` / `max(centers) + pre`. -/
def compute_span (selected : List AnnQso) (pre : ℚ) : Except String (ℚ × ℚ) :=
  match selected with
  | [] => .error "No QSOs in selected range"
  | q :: rest =>
    let centers := (q :: rest).map (·.abs_rec_second)
    .ok (centers.foldl min (q.abs_rec_second) - pre, centers.foldl max (q.abs_rec_second) + pre)

/-- app.py:392-407 — the selection logic of `contest_download_selection`:
index validation, 1-based inclusive filtering, then the span. -/
def contest_download_selection (qsos : List AnnQso) (pre : ℚ) (start_idx end_idx : ℤ) :
    Except String (List AnnQso × ℚ × ℚ) :=
  if start_idx ≤ 0 ∨ end_idx ≤ 0 ∨ end_idx < start_idx then .error "Invalid range"
  else
    match compute_span (qsos.filter fun q =>
        decide (start_idx ≤ (q.index : ℤ)) && decide ((q.index : ℤ) ≤ end_idx)) pre with
    | .error e => .error e
    | .ok (a, b) =>
      .ok (qsos.filter fun q =>
        decide (start_idx ≤ (q.index : ℤ)) && decide ((q.index : ℤ) ≤ end_idx), a, b)

def upperL (l : List Char) : List Char := l.map Char.toUpper

/-- Python `needle in hay` (substring containment). -/
def substrB : List Char → List Char → Bool
  | n, [] => n.isEmpty
  | n, c :: t => n.isPrefixOf (c :: t) || substrB n t

/-- `%M` at the end of the string (`[0-5]\d|\d`). -/
def parseMinTok : List Char → Option Nat
  | [a, b] =>
    if isDigitB a && isDigitB b && decide (digitVal a ≤ 5) then
      some (10 * digitVal a + digitVal b)
    else none
  | [a] => if isDigitB a then some (digitVal a) else none
  | _ => none

/-- `%H:%M` at the end of the string. -/
def parseHMq : List Char → Option (Nat × Nat)
  | a :: b :: ':' :: rest =>
    if isDigitB a && isDigitB b then
      if decide (10 * digitVal a + digitVal b ≤ 23) then
        (parseMinTok rest).map fun mi => (10 * digitVal a + digitVal b, mi)
      else none
    else none
  | a :: ':' :: rest =>
    if isDigitB a then (parseMinTok rest).map fun mi => (digitVal a, mi) else none
  | _ => none

/-- Consume the `\s+` run a whitespace character in a strptime format
stands for: at least one whitespace character, maximally many. -/
def afterWs (l : List Char) : Option (List Char) :=
  match l with
  | c :: rest => if isWs c then some (rest.dropWhile isWs) else none
  | [] => none

/-- `%d` then whitespace then `%H:%M`. -/
def parseDayTimeQ : List Char → Option (Nat × Nat × Nat)
  | a :: b :: rest =>
    if isDigitB a && isDigitB b then
      if decide (1 ≤ 10 * digitVal a + digitVal b) && decide (10 * digitVal a + digitVal b ≤ 31) then
        (afterWs rest).bind fun r =>
          (parseHMq r).map fun p => (10 * digitVal a + digitVal b, p.1, p.2)
      else none
    else
      if isDigitB a && decide (1 ≤ digitVal a) then
        (afterWs (b :: rest)).bind fun r => (parseHMq r).map fun p => (digitVal a, p.1, p.2)
      else none
  | _ => none

/-- `%m-` then day/time, two-digit month preferred. -/
def parseMonthDayTimeQ : List Char → Option (Nat × Nat × Nat × Nat)
  | m1 :: m2 :: '-' :: rest =>
    if isDigitB m1 && isDigitB m2
        && decide (1 ≤ 10 * digitVal m1 + digitVal m2)
        && decide (10 * digitVal m1 + digitVal m2 ≤ 12) then
      (parseDayTimeQ rest).map fun p => (10 * digitVal m1 + digitVal m2, p.1, p.2.1, p.2.2)
    else none
  | m1 :: '-' :: rest =>
    if isDigitB m1 && decide (1 ≤ digitVal m1) then
      (parseDayTimeQ rest).map fun p => (digitVal m1, p.1, p.2.1, p.2.2)
    else none
  | _ => none

/-- app.py:342-356 — `datetime.strptime(s, "%Y-%m-%d %H:%M")` on the
stripped query string, `none` on `ValueError`. -/
def parse_query_time : List Char → Option DateTime
  | y1 :: y2 :: y3 :: y4 :: '-' :: rest =>
    if isDigitB y1 && isDigitB y2 && isDigitB y3 && isDigitB y4 then
      (parseMonthDayTimeQ rest).bind fun p =>
        let y := 1000 * digitVal y1 + 100 * digitVal y2 + 10 * digitVal y3 + digitVal y4
        if decide (1 ≤ y) && decide (p.2.1 ≤ daysInMonth y p.1) then
          some ⟨y, p.1, p.2.1, p.2.2.1, p.2.2.2⟩
        else none
    else none
  | _ => none

/-- Python `<` on two minute-precision datetimes (lexicographic). -/
def dtLtB (a b : DateTime) : Bool :=
  if a.year ≠ b.year then decide (a.year < b.year)
  else if a.month ≠ b.month then decide (a.month < b.month)
  else if a.day ≠ b.day then decide (a.day < b.day)
  else if a.hour ≠ b.hour then decide (a.hour < b.hour)
  else decide (a.minute < b.minute)

/-- The optional time bound derived from a raw query argument
(app.py:339-356): stripped, empty means absent, parse failure means absent. -/
def timeBound (raw : List Char) : Option DateTime :=
  if (trimWs raw).isEmpty then none else parse_query_time (trimWs raw)

/-- app.py:338-366 — the filtering loop of `contest_view` (each `continue`
becomes a negated conjunct of the kept predicate). -/
def contest_view (qsos : List Qso) (call_raw time_from_raw time_to_raw : List Char) : List Qso :=
  let call_query := upperL (trimWs call_raw)
  let t_from := timeBound time_from_raw
  let t_to := timeBound time_to_raw
  qsos.filter fun q =>
    !(!call_query.isEmpty && !substrB call_query (upperL q.mycall)
        && !substrB call_query (upperL q.hiscall))
    && !(t_from.elim false fun t => dtLtB q.datetime t)
    && !(t_to.elim false fun t => dtLtB t q.datetime)

inductive BuildErr where
  | noAudio
  | parseError (e : ParseErr)
deriving DecidableEq

/-- A built contest session (the durable state of `ContestSession`). -/
structure Session where
  audio_index : List Seg
  header_lines : List (List Char)
  qsos : List AnnQso
  pre_seconds : ℚ
deriving DecidableEq

/-- app.py:210-214 — `_build` (metadata loading modelled by the anchor
arguments; the audio-directory check of `_build_audio_index` raises on an
empty file list before parsing is attempted). -/
def build_session (files : List (String × ℚ)) (log_lines : List (List Char))
    (rec_start contest_start : DateTime) (pre : ℚ) : Except BuildErr Session :=
  if files.isEmpty then .error .noAudio
  else
    match parse_cabrillo log_lines with
    | .error e => .error (.parseError e)
    | .ok (hs, qs) =>
      .ok ⟨build_audio_index files,
           hs,
           attach_audio_positions (build_audio_index files) rec_start contest_start pre qs,
           pre⟩

/-- app.py:288-315 — `init_contests`: each contest build is attempted; a
failing build is skipped (logged) and the rest are still registered. -/
def init_contests : List (String × Except BuildErr Session) → List (String × Session)
  | [] => []
  | (n, .ok s) :: rest => (n, s) :: init_contests rest
  | (_, .error _) :: rest => init_contests rest

/-- Decidable equality for `Except` results, for evaluating the model on
concrete inputs. -/
instance {e a : Type} [DecidableEq e] [DecidableEq a] : DecidableEq (Except e a) := fun x y =>
  match x, y with
  | .error e1, .error e2 =>
    if h : e1 = e2 then .isTrue (by rw [h]) else .isFalse (fun hc => h (Except.error.inj hc))
  | .ok v1, .ok v2 =>
    if h : v1 = v2 then .isTrue (by rw [h]) else .isFalse (fun hc => h (Except.ok.inj hc))
  | .error _, .ok _ => .isFalse (fun hc => Except.noConfusion hc)
  | .ok _, .error _ => .isFalse (fun hc => Except.noConfusion hc)

/-- A non-empty run of non-whitespace characters: what `tokens` returns. -/
def IsToken (t : List Char) : Prop := t ≠ [] ∧ ∀ c ∈ t, isWs c = false

/-- The rest of the input either ends or continues with whitespace. -/
def WsBdry (l : List Char) : Prop := l = [] ∨ ∃ c r, l = c :: r ∧ isWs c = true

/-- Well-formed field values of a `datetime`: exactly the values the
`strptime` model can produce. -/
def WfDT (t : DateTime) : Prop :=
  1 ≤ t.year ∧ t.year ≤ 9999 ∧ 1 ≤ t.month ∧ t.month ≤ 12 ∧
    1 ≤ t.day ∧ t.day ≤ daysInMonth t.year t.month ∧ t.hour ≤ 23 ∧ t.minute ≤ 59

def durSum (fs : List (String × ℚ)) : ℚ := (fs.map (·.2)).sum

/-- Well-formed event records: exactly the records `line_event` can
produce — a `strptime`-producible timestamp and whitespace-free non-empty
field strings (tokens of the source line). -/
def WfQso (q : Qso) : Prop :=
  WfDT q.datetime ∧ IsToken q.freq ∧ IsToken q.mode ∧ IsToken q.mycall ∧
    IsToken q.rst_s ∧ IsToken q.exch_s ∧ IsToken q.hiscall ∧ IsToken q.rst_r ∧
    IsToken q.exch_r

/-
Helper lemmas about the whitespace tokenizer and trimming.
-/

theorem tokensAux_nonws_append (w : List Char) (hw : ∀ c ∈ w, isWs c = false) :
    ∀ (l acc : List Char), tokensAux (w ++ l) acc = tokensAux l (w.reverse ++ acc) := by
  induction w with
  | nil => intro l acc; simp
  | cons c w ih =>
    intro l acc
    have hc : isWs c = false := hw c (by simp)
    rw [List.cons_append]
    show tokensAux (c :: (w ++ l)) acc = tokensAux l ((c :: w).reverse ++ acc)
    rw [show tokensAux (c :: (w ++ l)) acc = tokensAux (w ++ l) (c :: acc) by
      simp [tokensAux, hc]]
    rw [ih (fun x hx => hw x (by simp [hx])) l (c :: acc)]
    congr 1
    simp

theorem tokensAux_flush (l acc : List Char) (hacc : acc ≠ []) (hb : WsBdry l) :
    tokensAux l acc = acc.reverse :: tokensAux l [] := by
  rcases hb with rfl | ⟨c, r, rfl, hc⟩
  · rcases acc with _ | ⟨a, as⟩
    · exact absurd rfl hacc
    · simp [tokensAux]
  · rcases acc with _ | ⟨a, as⟩
    · exact absurd rfl hacc
    · simp [tokensAux, hc]

theorem tokens_token_cons (w l : List Char) (hw : IsToken w) (hb : WsBdry l) :
    tokens (w ++ l) = w :: tokens l := by
  unfold tokens
  rw [tokensAux_nonws_append w hw.2 l []]
  rw [tokensAux_flush l (w.reverse ++ []) (by simp [hw.1]) hb]
  simp

theorem tokens_ws_cons (c : Char) (l : List Char) (h : isWs c = true) :
    tokens (c :: l) = tokens l := by
  simp [tokens, tokensAux, h]

theorem tokens_rep (k : Nat) (l : List Char) :
    tokens (List.replicate k ' ' ++ l) = tokens l := by
  induction k with
  | zero => simp
  | succ n ih =>
    rw [List.replicate_succ, List.cons_append, tokens_ws_cons _ _ (by decide)]
    exact ih

theorem tokensAux_mem (l : List Char) : ∀ (acc t : List Char),
    (∀ c ∈ acc, isWs c = false) → t ∈ tokensAux l acc → IsToken t := by
  induction l with
  | nil =>
    intro acc t hacc ht
    rcases acc with _ | ⟨a, as⟩
    · simp [tokensAux] at ht
    · simp [tokensAux] at ht
      subst ht
      refine ⟨by simp, fun c hc => hacc c ?_⟩
      simp at hc
      rcases hc with hc | rfl
      · exact List.mem_cons_of_mem _ hc
      · exact List.mem_cons_self _ _
  | cons c cs ih =>
    intro acc t hacc ht
    cases hc : isWs c with
    | true =>
      rcases acc with _ | ⟨a, as⟩
      · simp [tokensAux, hc] at ht
        exact ih [] t (by simp) ht
      · simp [tokensAux, hc] at ht
        rcases ht with rfl | ht
        · refine ⟨by simp, fun x hx => hacc x ?_⟩
          simp at hx
          rcases hx with hx | rfl
          · exact List.mem_cons_of_mem _ hx
          · exact List.mem_cons_self _ _
        · exact ih [] t (by simp) ht
    | false =>
      simp [tokensAux, hc] at ht
      refine ih (c :: acc) t ?_ ht
      intro x hx
      rcases List.mem_cons.mp hx with rfl | hx
      · exact hc
      · exact hacc x hx

theorem tokens_mem (l t : List Char) (ht : t ∈ tokens l) : IsToken t :=
  tokensAux_mem l [] t (by simp) ht

theorem dropWhile_append_of_ne (p : Char → Bool) (v : List Char) :
    ∀ u : List Char, u.dropWhile p ≠ [] → (u ++ v).dropWhile p = u.dropWhile p ++ v := by
  intro u
  induction u with
  | nil => intro h; simp at h
  | cons c u ih =>
    intro h
    cases hc : p c
    · simp [List.dropWhile_cons, hc]
    · simp only [List.dropWhile_cons, hc, if_true] at h ⊢
      rw [List.cons_append]
      simp only [List.dropWhile_cons, hc, if_true]
      exact ih h

theorem dropTrailingWs_append (a b : List Char) (h : dropTrailingWs b ≠ []) :
    dropTrailingWs (a ++ b) = a ++ dropTrailingWs b := by
  unfold dropTrailingWs at *
  have hb : b.reverse.dropWhile isWs ≠ [] := by
    intro hcon
    rw [hcon] at h
    simp at h
  rw [List.reverse_append, dropWhile_append_of_ne isWs a.reverse b.reverse hb]
  simp

theorem tokensAux_allws : ∀ r : List Char, (∀ c ∈ r, isWs c = true) → tokensAux r [] = [] := by
  intro r
  induction r with
  | nil => intro _; rfl
  | cons c r ih =>
    intro hr
    have hc : isWs c = true := hr c (by simp)
    rw [show tokensAux (c :: r) [] = tokensAux r [] by simp [tokensAux, hc]]
    exact ih (fun x hx => hr x (by simp [hx]))

theorem tokensAux_append_allws (r : List Char) (hr : ∀ c ∈ r, isWs c = true) :
    ∀ (l acc : List Char), tokensAux (l ++ r) acc = tokensAux l acc := by
  intro l
  induction l with
  | nil =>
    intro acc
    rcases acc with _ | ⟨a, as⟩
    · simp only [List.nil_append]
      rw [tokensAux_allws r hr]
      rfl
    · simp only [List.nil_append]
      rcases r with _ | ⟨c, r2⟩
      · rfl
      · have hc : isWs c = true := hr c (by simp)
        rw [show tokensAux (c :: r2) (a :: as) = (a :: as).reverse :: tokensAux r2 [] by
          simp [tokensAux, hc]]
        rw [tokensAux_allws r2 (fun x hx => hr x (by simp [hx]))]
        rfl
  | cons c l ih =>
    intro acc
    rw [List.cons_append]
    cases hc : isWs c with
    | true =>
      rcases acc with _ | ⟨a, as⟩
      · rw [show tokensAux (c :: (l ++ r)) [] = tokensAux (l ++ r) [] by simp [tokensAux, hc],
            show tokensAux (c :: l) [] = tokensAux l [] by simp [tokensAux, hc]]
        exact ih []
      · rw [show tokensAux (c :: (l ++ r)) (a :: as) = (a :: as).reverse :: tokensAux (l ++ r) [] by
              simp [tokensAux, hc],
            show tokensAux (c :: l) (a :: as) = (a :: as).reverse :: tokensAux l [] by
              simp [tokensAux, hc]]
        rw [ih []]
    | false =>
      rw [show tokensAux (c :: (l ++ r)) acc = tokensAux (l ++ r) (c :: acc) by
            simp [tokensAux, hc],
          show tokensAux (c :: l) acc = tokensAux l (c :: acc) by simp [tokensAux, hc]]
      exact ih (c :: acc)

theorem tokens_append_allws (l r : List Char) (hr : ∀ c ∈ r, isWs c = true) :
    tokens (l ++ r) = tokens l :=
  tokensAux_append_allws r hr l []

theorem tokens_dropWhileWs (l : List Char) : tokens (l.dropWhile isWs) = tokens l := by
  induction l with
  | nil => rfl
  | cons c l ih =>
    cases hc : isWs c with
    | true =>
      rw [List.dropWhile_cons]
      simp only [hc, if_true]
      rw [tokens_ws_cons c l hc]
      exact ih
    | false =>
      rw [List.dropWhile_cons]
      simp only [hc]
      rfl

theorem tokens_trimWs (l : List Char) : tokens (trimWs l) = tokens l := by
  unfold trimWs
  rw [← tokens_dropWhileWs l]
  generalize l.dropWhile isWs = a
  have h : a = dropTrailingWs a ++ (a.reverse.takeWhile isWs).reverse := by
    unfold dropTrailingWs
    rw [← List.reverse_append, List.takeWhile_append_dropWhile, List.reverse_reverse]
  conv_rhs => rw [h]
  rw [tokens_append_allws]
  intro c hc
  rw [List.mem_reverse] at hc
  exact List.mem_takeWhile_imp hc

/-
Digit and date/time formatting lemmas.
-/

theorem isDigitB_digitChar (n : Nat) : isDigitB (digitChar n) = true := by
  unfold digitChar
  split_ifs <;> decide

theorem isWs_digitChar (n : Nat) : isWs (digitChar n) = false := by
  unfold digitChar
  split_ifs <;> decide

theorem digitVal_digitChar (n : Nat) : digitVal (digitChar n) = n % 10 := by
  have h : n % 10 < 10 := Nat.mod_lt _ (by omega)
  unfold digitChar
  split_ifs with h0 h1 h2 h3 h4 h5 h6 h7 h8
  · rw [h0]; decide
  · rw [h1]; decide
  · rw [h2]; decide
  · rw [h3]; decide
  · rw [h4]; decide
  · rw [h5]; decide
  · rw [h6]; decide
  · rw [h7]; decide
  · rw [h8]; decide
  · rw [show n % 10 = 9 by omega]; decide

theorem digitVal_le_nine (c : Char) (h : isDigitB c = true) : digitVal c ≤ 9 := by
  simp [isDigitB] at h
  unfold digitVal
  omega

theorem daysInMonth_le (y m : Nat) : daysInMonth y m ≤ 31 := by
  unfold daysInMonth
  split_ifs <;> omega

theorem daysInMonth_pos (y m : Nat) : 1 ≤ daysInMonth y m := by
  unfold daysInMonth
  split_ifs <;> omega

theorem parseDayTok_pad2 (d : Nat) (h1 : 1 ≤ d) (h2 : d ≤ 31) :
    parseDayTok (pad2 d) = some d := by
  have hv : 10 * (d / 10 % 10) + d % 10 = d := by omega
  simp [pad2, parseDayTok, isDigitB_digitChar, digitVal_digitChar, hv, h1, h2]

theorem parseMonthDay_fmt (m d : Nat) (hm1 : 1 ≤ m) (hm2 : m ≤ 12) (hd1 : 1 ≤ d)
    (hd2 : d ≤ 31) : parseMonthDay (pad2 m ++ '-' :: pad2 d) = some (m, d) := by
  have hv : 10 * (m / 10 % 10) + m % 10 = m := by omega
  have hday : parseDayTok [digitChar (d / 10), digitChar d] = some d := parseDayTok_pad2 d hd1 hd2
  have h2 : parseMD2 (pad2 m ++ '-' :: pad2 d) = some (m, d) := by
    simp [pad2, parseMD2, isDigitB_digitChar, digitVal_digitChar, hv, hm1, hm2, hday]
  simp [parseMonthDay, h2]

theorem parseDate_fmt (y m d : Nat) (hy : y ≤ 9999) (hm1 : 1 ≤ m) (hm2 : m ≤ 12)
    (hd1 : 1 ≤ d) (hd2 : d ≤ 31) :
    parseDate (pad4 y ++ '-' :: (pad2 m ++ '-' :: pad2 d)) = some (y, m, d) := by
  have hv : 1000 * (y / 1000 % 10) + 100 * (y / 100 % 10) + 10 * (y / 10 % 10) + y % 10 = y := by
    omega
  simp [pad4, parseDate, isDigitB_digitChar, digitVal_digitChar,
    parseMonthDay_fmt m d hm1 hm2 hd1 hd2, hv]

theorem parseTimeHM_fmt (h mi : Nat) (hh : h ≤ 23) (hm : mi ≤ 59) :
    parseTimeHM (pad2 h ++ pad2 mi) = some (h, mi) := by
  have hv1 : 10 * (h / 10 % 10) + h % 10 = h := by omega
  have hv2 : 10 * (mi / 10 % 10) + mi % 10 = mi := by omega
  have hv3 : mi / 10 % 10 ≤ 5 := by omega
  simp [pad2, parseTimeHM, isDigitB_digitChar, digitVal_digitChar, hv1, hv2, hv3, hh]

theorem strptime_fmt (t : DateTime) (h : WfDT t) :
    strptimeDateHM (fmtDate t) (fmtTimeHM t) = some t := by
  obtain ⟨h1, h2, h3, h4, h5, h6, h7, h8⟩ := h
  have hd : t.day ≤ 31 := le_trans h6 (daysInMonth_le _ _)
  simp [strptimeDateHM, fmtDate, fmtTimeHM, parseDate_fmt t.year t.month t.day h2 h3 h4 h5 hd,
    parseTimeHM_fmt t.hour t.minute h7 h8, h1, h6]

theorem parseDayTok_bounds (s : List Char) (d : Nat) (h : parseDayTok s = some d) :
    1 ≤ d ∧ d ≤ 31 := by
  rcases s with _ | ⟨a, s⟩
  · simp [parseDayTok] at h
  rcases s with _ | ⟨b, s⟩
  · simp only [parseDayTok] at h
    split_ifs at h with hc
    simp only [Option.some.injEq] at h
    simp at hc
    obtain ⟨ha, h1⟩ := hc
    have h9 := digitVal_le_nine a ha
    omega
  rcases s with _ | ⟨c, s⟩
  · simp only [parseDayTok] at h
    split_ifs at h with hc
    simp only [Option.some.injEq] at h
    simp at hc
    obtain ⟨⟨⟨ha, hb⟩, h1⟩, h2⟩ := hc
    omega
  · simp [parseDayTok] at h

theorem parseMD2_bounds (s : List Char) (m d : Nat) (h : parseMD2 s = some (m, d)) :
    1 ≤ m ∧ m ≤ 12 ∧ 1 ≤ d ∧ d ≤ 31 := by
  rcases s with _ | ⟨m1, _ | ⟨m2, _ | ⟨sep, dr⟩⟩⟩
  · simp [parseMD2] at h
  · simp [parseMD2] at h
  · simp [parseMD2] at h
  · simp only [parseMD2] at h
    split_ifs at h with hc
    simp at hc
    obtain ⟨⟨⟨⟨hsep, hm1⟩, hm2⟩, h1⟩, h2⟩ := hc
    simp only [Option.map_eq_some'] at h
    obtain ⟨d0, hd0, heq⟩ := h
    simp only [Prod.mk.injEq] at heq
    obtain ⟨hm, hd⟩ := heq
    subst hm
    subst hd
    have := parseDayTok_bounds dr d0 hd0
    omega

theorem parseMD1_bounds (s : List Char) (m d : Nat) (h : parseMD1 s = some (m, d)) :
    1 ≤ m ∧ m ≤ 12 ∧ 1 ≤ d ∧ d ≤ 31 := by
  rcases s with _ | ⟨m1, _ | ⟨sep, dr⟩⟩
  · simp [parseMD1] at h
  · simp [parseMD1] at h
  · simp only [parseMD1] at h
    split_ifs at h with hc
    simp at hc
    obtain ⟨⟨hsep, hm1⟩, h1⟩ := hc
    simp only [Option.map_eq_some'] at h
    obtain ⟨d0, hd0, heq⟩ := h
    simp only [Prod.mk.injEq] at heq
    obtain ⟨hm, hd⟩ := heq
    subst hm
    subst hd
    have h9 := digitVal_le_nine m1 hm1
    have := parseDayTok_bounds dr d0 hd0
    omega

theorem parseMonthDay_bounds (s : List Char) (m d : Nat) (h : parseMonthDay s = some (m, d)) :
    1 ≤ m ∧ m ≤ 12 ∧ 1 ≤ d ∧ d ≤ 31 := by
  unfold parseMonthDay at h
  cases h2 : parseMD2 s with
  | some p =>
    rw [h2] at h
    simp [Option.orElse] at h
    subst h
    exact parseMD2_bounds s m d h2
  | none =>
    rw [h2] at h
    simp [Option.orElse] at h
    exact parseMD1_bounds s m d h

theorem parseDate_bounds (s : List Char) (y m d : Nat) (h : parseDate s = some (y, m, d)) :
    y ≤ 9999 ∧ 1 ≤ m ∧ m ≤ 12 ∧ 1 ≤ d ∧ d ≤ 31 := by
  rcases s with _ | ⟨y1, _ | ⟨y2, _ | ⟨y3, _ | ⟨y4, _ | ⟨sep, rest⟩⟩⟩⟩⟩
  · simp [parseDate] at h
  · simp [parseDate] at h
  · simp [parseDate] at h
  · simp [parseDate] at h
  · simp [parseDate] at h
  · simp only [parseDate] at h
    split_ifs at h with hc
    simp at hc
    obtain ⟨⟨⟨⟨hsep, h1⟩, h2⟩, h3⟩, h4⟩ := hc
    simp only [Option.map_eq_some'] at h
    obtain ⟨p, hp, heq⟩ := h
    simp only [Prod.mk.injEq] at heq
    obtain ⟨hy, hm, hd⟩ := heq
    subst hy
    subst hm
    subst hd
    have hb := parseMonthDay_bounds rest p.1 p.2 (by rw [hp])
    have e1 := digitVal_le_nine y1 h1
    have e2 := digitVal_le_nine y2 h2
    have e3 := digitVal_le_nine y3 h3
    have e4 := digitVal_le_nine y4 h4
    omega

theorem parseTimeHM_bounds (s : List Char) (hh mm : Nat) (h : parseTimeHM s = some (hh, mm)) :
    hh ≤ 23 ∧ mm ≤ 59 := by
  rcases s with _ | ⟨a, _ | ⟨b, _ | ⟨c, _ | ⟨d, rest⟩⟩⟩⟩
  · simp [parseTimeHM] at h
  · simp [parseTimeHM] at h
  · simp only [parseTimeHM] at h
    split_ifs at h with hc
    simp at hc
    simp only [Option.some.injEq, Prod.mk.injEq] at h
    obtain ⟨ha, hb⟩ := hc
    have e1 := digitVal_le_nine a ha
    have e2 := digitVal_le_nine b hb
    omega
  · simp only [parseTimeHM] at h
    split_ifs at h with hc h1 h2
    · simp at hc h1
      simp only [Option.some.injEq, Prod.mk.injEq] at h
      obtain ⟨⟨ha, hb⟩, hcc⟩ := hc
      have e3 := digitVal_le_nine c hcc
      omega
    · simp at hc h2
      simp only [Option.some.injEq, Prod.mk.injEq] at h
      obtain ⟨⟨ha, hb⟩, hcc⟩ := hc
      have e1 := digitVal_le_nine a ha
      have e3 := digitVal_le_nine c hcc
      omega
  rcases rest with _ | ⟨e, rest⟩
  · simp only [parseTimeHM] at h
    split_ifs at h with hc h1
    simp at hc h1
    simp only [Option.some.injEq, Prod.mk.injEq] at h
    obtain ⟨⟨⟨ha, hb⟩, hcc⟩, hd⟩ := hc
    have e3 := digitVal_le_nine c hcc
    have e4 := digitVal_le_nine d hd
    omega
  · simp [parseTimeHM] at h

theorem strptime_bounds (dTok tTok : List Char) (t : DateTime)
    (h : strptimeDateHM dTok tTok = some t) : WfDT t := by
  unfold strptimeDateHM at h
  cases hd : parseDate dTok with
  | none => rw [hd] at h; simp at h
  | some p =>
    rw [hd] at h
    cases ht : parseTimeHM tTok with
    | none => rw [ht] at h; simp at h
    | some q =>
      rw [ht] at h
      simp only [Option.bind_eq_bind, Option.some_bind] at h
      split_ifs at h with hc
      simp at hc
      simp only [Option.some.injEq] at h
      obtain ⟨p1, p2, p3⟩ := p
      obtain ⟨q1, q2⟩ := q
      have hdb := parseDate_bounds dTok p1 p2 p3 hd
      have htb := parseTimeHM_bounds tTok q1 q2 ht
      subst h
      exact ⟨hc.1, hdb.1, hdb.2.1, hdb.2.2.1, hdb.2.2.2.1, hc.2, htb.1, htb.2⟩

/-
Structure of `_parse_cabrillo` over a line list.
-/

theorem parse_cons_event_short (raw : List Char) (rest : List (List Char)) (b : Bool)
    (hq : isQsoLine raw = true) (hlen : (tokens (trimWs raw)).length < 11) :
    parseCabrilloLines (raw :: rest) b = parseCabrilloLines rest true := by
  simp only [parseCabrilloLines, hq, if_true, hlen, if_pos]

theorem parse_cons_event_bad (raw : List Char) (rest : List (List Char)) (b : Bool)
    (hq : isQsoLine raw = true) (hlen : ¬ (tokens (trimWs raw)).length < 11)
    (hdt : strptimeDateHM ((tokens (trimWs raw)).getD 3 []) ((tokens (trimWs raw)).getD 4 []) =
      none) :
    parseCabrilloLines (raw :: rest) b = .error .malformedTimestamp := by
  simp only [parseCabrilloLines, hq, if_true, hlen, if_false, hdt]

theorem parse_cons_event_good (raw : List Char) (rest : List (List Char)) (b : Bool)
    (dt : DateTime) (hq : isQsoLine raw = true) (hlen : ¬ (tokens (trimWs raw)).length < 11)
    (hdt : strptimeDateHM ((tokens (trimWs raw)).getD 3 []) ((tokens (trimWs raw)).getD 4 []) =
      some dt) :
    parseCabrilloLines (raw :: rest) b =
      match parseCabrilloLines rest true with
      | .error e => .error e
      | .ok (hs, qs) => .ok (hs, qsoOfParts dt (tokens (trimWs raw)) :: qs) := by
  simp only [parseCabrilloLines, hq, if_true, hlen, if_false, hdt]

theorem parse_cons_nonevent (raw : List Char) (rest : List (List Char)) (b : Bool)
    (hq : isQsoLine raw = false) :
    parseCabrilloLines (raw :: rest) b =
      match parseCabrilloLines rest b with
      | .error e => .error e
      | .ok (hs, qs) => if b then .ok (hs, qs) else .ok (raw :: hs, qs) := by
  simp only [parseCabrilloLines, hq, Bool.false_eq_true, if_false]

theorem line_event_nonevent (raw : List Char) (hq : isQsoLine raw = false) :
    line_event raw = none := by
  simp only [line_event, hq, Bool.false_eq_true, if_false]

theorem line_event_short (raw : List Char) (hq : isQsoLine raw = true)
    (hlen : (tokens (trimWs raw)).length < 11) : line_event raw = none := by
  simp only [line_event, hq, if_true, hlen, if_pos]

theorem line_event_bad (raw : List Char) (hq : isQsoLine raw = true)
    (hlen : ¬ (tokens (trimWs raw)).length < 11)
    (hdt : strptimeDateHM ((tokens (trimWs raw)).getD 3 []) ((tokens (trimWs raw)).getD 4 []) =
      none) : line_event raw = none := by
  simp only [line_event, hq, if_true, hlen, if_false, hdt, Option.map_none']

theorem line_event_good (raw : List Char) (dt : DateTime) (hq : isQsoLine raw = true)
    (hlen : ¬ (tokens (trimWs raw)).length < 11)
    (hdt : strptimeDateHM ((tokens (trimWs raw)).getD 3 []) ((tokens (trimWs raw)).getD 4 []) =
      some dt) : line_event raw = some (qsoOfParts dt (tokens (trimWs raw))) := by
  simp only [line_event, hq, if_true, hlen, if_false, hdt, Option.map_some']

theorem parse_ok_spec (ls : List (List Char)) : ∀ (b : Bool) hs qs,
    parseCabrilloLines ls b = .ok (hs, qs) →
    hs = (if b then [] else ls.takeWhile fun l => !isQsoLine l) ∧
    qs = ls.filterMap line_event := by
  induction ls with
  | nil =>
    intro b hs qs h
    simp only [parseCabrilloLines, Except.ok.injEq, Prod.mk.injEq] at h
    obtain ⟨h1, h2⟩ := h
    subst h1; subst h2
    cases b <;> simp
  | cons raw rest ih =>
    intro b hs qs h
    cases hq : isQsoLine raw with
    | true =>
      by_cases hlen : (tokens (trimWs raw)).length < 11
      · rw [parse_cons_event_short raw rest b hq hlen] at h
        obtain ⟨h1, h2⟩ := ih true hs qs h
        subst h1; subst h2
        constructor
        · cases b <;> simp [List.takeWhile_cons, hq]
        · rw [List.filterMap_cons, line_event_short raw hq hlen]
      · cases hdt : strptimeDateHM ((tokens (trimWs raw)).getD 3 [])
          ((tokens (trimWs raw)).getD 4 []) with
        | none =>
          rw [parse_cons_event_bad raw rest b hq hlen hdt] at h
          simp at h
        | some dt =>
          rw [parse_cons_event_good raw rest b dt hq hlen hdt] at h
          cases hr : parseCabrilloLines rest true with
          | error e => rw [hr] at h; simp at h
          | ok p =>
            rw [hr] at h
            obtain ⟨hs2, qs2⟩ := p
            simp only [Except.ok.injEq, Prod.mk.injEq] at h
            obtain ⟨h1, h2⟩ := h
            subst h1; subst h2
            obtain ⟨h3, h4⟩ := ih true hs2 qs2 hr
            subst h3; subst h4
            constructor
            · cases b <;> simp [List.takeWhile_cons, hq]
            · rw [List.filterMap_cons, line_event_good raw dt hq hlen hdt]
    | false =>
      rw [parse_cons_nonevent raw rest b hq] at h
      cases hr : parseCabrilloLines rest b with
      | error e => rw [hr] at h; simp at h
      | ok p =>
        rw [hr] at h
        obtain ⟨hs2, qs2⟩ := p
        obtain ⟨h3, h4⟩ := ih b hs2 qs2 hr
        subst h3; subst h4
        cases b
        · simp only [Bool.false_eq_true, if_false] at h
          simp only [Except.ok.injEq, Prod.mk.injEq] at h
          obtain ⟨h1, h2⟩ := h
          subst h1; subst h2
          constructor
          · simp [List.takeWhile_cons, hq]
          · rw [List.filterMap_cons, line_event_nonevent raw hq]
        · simp only [if_true] at h
          simp only [Except.ok.injEq, Prod.mk.injEq] at h
          obtain ⟨h1, h2⟩ := h
          subst h1; subst h2
          constructor
          · simp
          · rw [List.filterMap_cons, line_event_nonevent raw hq]

theorem parse_error_spec (ls : List (List Char)) : ∀ (b : Bool) (e : ParseErr),
    parseCabrilloLines ls b = .error e →
    ∃ raw ∈ ls, isQsoLine raw = true ∧ ¬ (tokens (trimWs raw)).length < 11 ∧
      strptimeDateHM ((tokens (trimWs raw)).getD 3 []) ((tokens (trimWs raw)).getD 4 []) =
        none := by
  induction ls with
  | nil => intro b e h; simp [parseCabrilloLines] at h
  | cons raw rest ih =>
    intro b e h
    cases hq : isQsoLine raw with
    | true =>
      by_cases hlen : (tokens (trimWs raw)).length < 11
      · rw [parse_cons_event_short raw rest b hq hlen] at h
        obtain ⟨l, hl, hprop⟩ := ih true e h
        exact ⟨l, List.mem_cons_of_mem _ hl, hprop⟩
      · cases hdt : strptimeDateHM ((tokens (trimWs raw)).getD 3 [])
          ((tokens (trimWs raw)).getD 4 []) with
        | none => exact ⟨raw, List.mem_cons_self _ _, hq, hlen, hdt⟩
        | some dt =>
          rw [parse_cons_event_good raw rest b dt hq hlen hdt] at h
          cases hr : parseCabrilloLines rest true with
          | error e2 =>
            rw [hr] at h
            obtain ⟨l, hl, hp⟩ := ih true e2 hr
            exact ⟨l, List.mem_cons_of_mem _ hl, hp⟩
          | ok p =>
            rw [hr] at h
            obtain ⟨a2, b2⟩ := p
            simp at h
    | false =>
      rw [parse_cons_nonevent raw rest b hq] at h
      cases hr : parseCabrilloLines rest b with
      | error e2 =>
        rw [hr] at h
        obtain ⟨l, hl, hp⟩ := ih b e2 hr
        exact ⟨l, List.mem_cons_of_mem _ hl, hp⟩
      | ok p =>
        rw [hr] at h
        obtain ⟨a2, b2⟩ := p
        cases b <;> simp at h

theorem parse_ok_good (ls : List (List Char)) : ∀ (b : Bool) hs qs,
    parseCabrilloLines ls b = .ok (hs, qs) →
    ∀ l ∈ ls, isQsoLine l = true → ¬ (tokens (trimWs l)).length < 11 →
      (strptimeDateHM ((tokens (trimWs l)).getD 3 [])
        ((tokens (trimWs l)).getD 4 [])).isSome = true := by
  induction ls with
  | nil => intro b hs qs h l hl; simp at hl
  | cons raw rest ih =>
    intro b hs qs h l hl hql hlenl
    rcases List.mem_cons.mp hl with rfl | hl
    · cases hdt : strptimeDateHM ((tokens (trimWs l)).getD 3 [])
        ((tokens (trimWs l)).getD 4 []) with
      | none =>
        rw [parse_cons_event_bad l rest b hql hlenl hdt] at h
        simp at h
      | some dt => simp
    · cases hq : isQsoLine raw with
      | true =>
        by_cases hlen : (tokens (trimWs raw)).length < 11
        · rw [parse_cons_event_short raw rest b hq hlen] at h
          exact ih true hs qs h l hl hql hlenl
        · cases hdt : strptimeDateHM ((tokens (trimWs raw)).getD 3 [])
            ((tokens (trimWs raw)).getD 4 []) with
          | none =>
            rw [parse_cons_event_bad raw rest b hq hlen hdt] at h
            simp at h
          | some dt =>
            rw [parse_cons_event_good raw rest b dt hq hlen hdt] at h
            cases hr : parseCabrilloLines rest true with
            | error e => rw [hr] at h; simp at h
            | ok p =>
              obtain ⟨hs2, qs2⟩ := p
              exact ih true hs2 qs2 hr l hl hql hlenl
      | false =>
        rw [parse_cons_nonevent raw rest b hq] at h
        cases hr : parseCabrilloLines rest b with
        | error e => rw [hr] at h; simp at h
        | ok p =>
          obtain ⟨hs2, qs2⟩ := p
          exact ih b hs2 qs2 hr l hl hql hlenl

/-
Audio index structure lemmas.
-/

theorem buildIndexFrom_length (fs : List (String × ℚ)) :
    ∀ s, (buildIndexFrom s fs).length = fs.length := by
  induction fs with
  | nil => intro s; rfl
  | cons f rest ih =>
    intro s
    obtain ⟨n, d⟩ := f
    simp [buildIndexFrom, ih]

theorem buildIndexFrom_ne_nil (fs : List (String × ℚ)) (s : ℚ) (h : fs ≠ []) :
    buildIndexFrom s fs ≠ [] := by
  rcases fs with _ | ⟨⟨n, d⟩, rest⟩
  · exact absurd rfl h
  · simp [buildIndexFrom]

theorem buildIndexFrom_getD (fs : List (String × ℚ)) : ∀ (s : ℚ) (i : Nat), i < fs.length →
    (buildIndexFrom s fs).getD i dummySeg =
      ⟨(fs.getD i ("", 0)).1, s + durSum (fs.take i), s + durSum (fs.take (i + 1))⟩ := by
  induction fs with
  | nil => intro s i h; simp at h
  | cons f rest ih =>
    intro s i h
    obtain ⟨n, d⟩ := f
    cases i with
    | zero =>
      simp [buildIndexFrom, durSum]
    | succ j =>
      have hj : j < rest.length := by simpa using h
      simp only [buildIndexFrom, List.getD_cons_succ, List.take_succ_cons]
      rw [ih (s + d) j hj, Seg.mk.injEq]
      refine ⟨rfl, ?_, ?_⟩
      · simp only [durSum, List.map_cons, List.sum_cons]
        ring
      · simp only [durSum, List.map_cons, List.sum_cons]
        ring

theorem last_end_cons (seg : Seg) (idx : List Seg) (h : idx ≠ []) :
    last_end (seg :: idx) = last_end idx := by
  rcases idx with _ | ⟨a, l⟩
  · exact absurd rfl h
  · unfold last_end
    rw [List.getLast?_cons_cons]

theorem last_end_buildIndexFrom (fs : List (String × ℚ)) :
    fs ≠ [] → ∀ s, last_end (buildIndexFrom s fs) = s + durSum fs := by
  induction fs with
  | nil => intro h; exact absurd rfl h
  | cons f rest ih =>
    intro _ s
    obtain ⟨n, d⟩ := f
    by_cases hr : rest = []
    · subst hr
      simp [buildIndexFrom, last_end, durSum]
    · simp only [buildIndexFrom]
      rw [last_end_cons _ _ (buildIndexFrom_ne_nil rest (s + d) hr), ih hr (s + d)]
      simp only [durSum, List.map_cons, List.sum_cons]
      ring

theorem durSum_nonneg (fs : List (String × ℚ)) (hd : ∀ p ∈ fs, 0 ≤ p.2) : 0 ≤ durSum fs := by
  unfold durSum
  refine List.sum_nonneg ?_
  intro x hx
  obtain ⟨p, hp, rfl⟩ := List.mem_map.mp hx
  exact hd p hp

theorem buildIndexFrom_start_le (fs : List (String × ℚ)) (hd : ∀ p ∈ fs, 0 ≤ p.2) :
    ∀ s, ∀ seg ∈ buildIndexFrom s fs, s ≤ seg.start ∧ seg.start ≤ seg.stop := by
  induction fs with
  | nil => intro s seg hseg; simp [buildIndexFrom] at hseg
  | cons f rest ih =>
    intro s seg hseg
    obtain ⟨n, d⟩ := f
    have hd0 : 0 ≤ d := hd (n, d) (by simp)
    have hdr : ∀ p ∈ rest, 0 ≤ p.2 := fun p hp => hd p (by simp [hp])
    simp only [buildIndexFrom, List.mem_cons] at hseg
    rcases hseg with rfl | hseg
    · constructor
      · exact le_refl s
      · simpa using by linarith
    · have := ih hdr (s + d) seg hseg
      exact ⟨by linarith [this.1], this.2⟩

theorem buildIndexFrom_stop_le (fs : List (String × ℚ)) (hd : ∀ p ∈ fs, 0 ≤ p.2) :
    ∀ s, ∀ seg ∈ buildIndexFrom s fs, seg.stop ≤ s + durSum fs := by
  induction fs with
  | nil => intro s seg hseg; simp [buildIndexFrom] at hseg
  | cons f rest ih =>
    intro s seg hseg
    obtain ⟨n, d⟩ := f
    have hd0 : 0 ≤ d := hd (n, d) (by simp)
    have hdr : ∀ p ∈ rest, 0 ≤ p.2 := fun p hp => hd p (by simp [hp])
    have hsum : 0 ≤ durSum rest := durSum_nonneg rest hdr
    have hsum2 : (0 : ℚ) ≤ (rest.map (·.2)).sum := hsum
    simp only [buildIndexFrom, List.mem_cons] at hseg
    rcases hseg with rfl | hseg
    · simp only [durSum, List.map_cons, List.sum_cons]
      linarith
    · have := ih hdr (s + d) seg hseg
      simp only [durSum, List.map_cons, List.sum_cons] at this ⊢
      linarith

theorem buildIndexFrom_pairwise (fs : List (String × ℚ)) (hd : ∀ p ∈ fs, 0 ≤ p.2) :
    ∀ s, (buildIndexFrom s fs).Pairwise (fun a b => a.stop ≤ b.start) := by
  induction fs with
  | nil => intro s; simp [buildIndexFrom]
  | cons f rest ih =>
    intro s
    obtain ⟨n, d⟩ := f
    have hdr : ∀ p ∈ rest, 0 ≤ p.2 := fun p hp => hd p (by simp [hp])
    simp only [buildIndexFrom]
    rw [List.pairwise_cons]
    constructor
    · intro b hb
      exact (buildIndexFrom_start_le rest hdr (s + d) b hb).1
    · exact ih hdr (s + d)

theorem seg_unique : ∀ (l : List Seg), l.Pairwise (fun a b => a.stop ≤ b.start) →
    ∀ (x : ℚ) a b, a ∈ l → b ∈ l → a.start ≤ x → x < a.stop → b.start ≤ x → x < b.stop →
      a = b := by
  intro l
  induction l with
  | nil => intro hp x a b ha; simp at ha
  | cons c l ih =>
    intro hp x a b ha hb h1 h2 h3 h4
    rw [List.pairwise_cons] at hp
    rcases List.mem_cons.mp ha with ha0 | ha0 <;> rcases List.mem_cons.mp hb with hb0 | hb0
    · rw [ha0, hb0]
    · subst ha0
      exact absurd (hp.1 b hb0) (by linarith)
    · subst hb0
      exact absurd (hp.1 a ha0) (by linarith)
    · exact ih hp.2 x a b ha0 hb0 h1 h2 h3 h4

theorem buildIndexFrom_find_some (fs : List (String × ℚ)) : ∀ (s x : ℚ), s ≤ x →
    x < s + durSum fs →
    ∃ seg, (buildIndexFrom s fs).find?
      (fun f => decide (f.start ≤ x) && decide (x < f.stop)) = some seg := by
  induction fs with
  | nil =>
    intro s x h1 h2
    simp only [durSum, List.map_nil, List.sum_nil] at h2
    exact absurd h2 (by linarith)
  | cons f rest ih =>
    intro s x h1 h2
    obtain ⟨n, d⟩ := f
    by_cases hx : x < s + d
    · refine ⟨⟨n, s, s + d⟩, ?_⟩
      simp only [buildIndexFrom]
      exact List.find?_cons_of_pos _
        (by simp only [Bool.and_eq_true, decide_eq_true_eq]; exact ⟨h1, hx⟩)
    · push_neg at hx
      have h2' : x < (s + d) + durSum rest := by
        simp only [durSum, List.map_cons, List.sum_cons] at h2 ⊢
        linarith
      obtain ⟨seg, hseg⟩ := ih (s + d) x hx h2'
      refine ⟨seg, ?_⟩
      simp only [buildIndexFrom]
      rw [List.find?_cons_of_neg _
        (by simp only [Bool.and_eq_true, decide_eq_true_eq, not_and]; intro _; linarith)]
      exact hseg

theorem resolve_some_spec (idx : List Seg) (x : ℚ) (fn : String) (off : ℚ)
    (h : resolve idx x = some (fn, off)) :
    ∃ seg ∈ idx, seg.filename = fn ∧ seg.start ≤ x ∧ x < seg.stop ∧ off = x - seg.start := by
  unfold resolve at h
  cases hf : idx.find? (fun f => decide (f.start ≤ x) && decide (x < f.stop)) with
  | none => rw [hf] at h; simp at h
  | some seg =>
    rw [hf] at h
    simp only [Option.map_some', Option.some.injEq, Prod.mk.injEq] at h
    have hmem := List.mem_of_find?_eq_some hf
    have hp := List.find?_some hf
    simp only [Bool.and_eq_true, decide_eq_true_eq] at hp
    exact ⟨seg, hmem, h.1, hp.1, hp.2, h.2.symm⟩

theorem resolve_build_none_iff (fs : List (String × ℚ)) (hd : ∀ p ∈ fs, 0 ≤ p.2) (x : ℚ) :
    resolve (build_audio_index fs) x = none ↔
      (x < 0 ∨ last_end (build_audio_index fs) ≤ x) := by
  rcases fs with _ | ⟨f, rest⟩
  · simp [build_audio_index, buildIndexFrom, resolve, last_end]
    rcases lt_or_le x 0 with h | h
    · exact Or.inl h
    · exact Or.inr h
  · have hne : (f :: rest) ≠ ([] : List (String × ℚ)) := by simp
    have hle : last_end (build_audio_index (f :: rest)) = 0 + durSum (f :: rest) :=
      last_end_buildIndexFrom (f :: rest) hne 0
    constructor
    · intro h
      by_contra hcon
      push_neg at hcon
      obtain ⟨h1, h2⟩ := hcon
      rw [hle] at h2
      obtain ⟨seg, hseg⟩ :=
        buildIndexFrom_find_some (f :: rest) 0 x (by linarith) (by linarith)
      unfold resolve build_audio_index at h
      rw [hseg] at h
      simp at h
    · intro h
      unfold resolve
      rw [List.find?_eq_none.mpr, Option.map_none']
      intro seg hseg
      simp only [Bool.and_eq_true, decide_eq_true_eq, not_and]
      intro hs1
      have hstart := (buildIndexFrom_start_le (f :: rest) hd 0 seg hseg).1
      have hstop := buildIndexFrom_stop_le (f :: rest) hd 0 seg hseg
      rw [hle] at h
      rcases h with h | h
      · linarith
      · intro hs2
        linarith

theorem resolve_build_zero (fs : List (String × ℚ)) (hf : fs ≠ [])
    (hd : ∀ p ∈ fs, 0 < p.2) :
    resolve (build_audio_index fs) 0 = some ((fs.getD 0 ("", 0)).1, 0) := by
  rcases fs with _ | ⟨⟨n, d⟩, rest⟩
  · exact absurd rfl hf
  · have hd0 : 0 < d := hd (n, d) (by simp)
    unfold resolve build_audio_index buildIndexFrom
    rw [List.find?_cons_of_pos _
      (by simp only [Bool.and_eq_true, decide_eq_true_eq]; exact ⟨le_refl _, by linarith⟩)]
    simp

theorem durSum_take_succ (fs : List (String × ℚ)) (i : Nat) (h : i < fs.length) :
    durSum (fs.take (i + 1)) = durSum (fs.take i) + (fs.getD i ("", 0)).2 := by
  unfold durSum
  rw [List.map_take, List.map_take, List.sum_take_succ (fs.map (·.2)) i (by simpa using h)]
  congr 1
  rw [List.getElem_map, List.getD_eq_getElem _ _ h]

/-- C2: a timeline built from a non-empty ordered file list satisfies the
segment invariants: the first segment starts at 0, each segment's end is its
start plus that file's duration, consecutive segments are gapless
(`end = next start`), and the total duration is the last segment's end,
which is the accumulated sum of all durations. -/
theorem c2_build_audio_index_invariants (files : List (String × ℚ)) (hne : files ≠ []) :
    (build_audio_index files).length = files.length ∧
    ((build_audio_index files).getD 0 dummySeg).start = 0 ∧
    (∀ i, i < files.length →
      ((build_audio_index files).getD i dummySeg).filename = (files.getD i ("", 0)).1 ∧
      ((build_audio_index files).getD i dummySeg).stop =
        ((build_audio_index files).getD i dummySeg).start + (files.getD i ("", 0)).2) ∧
    (∀ i, i + 1 < files.length →
      ((build_audio_index files).getD i dummySeg).stop =
        ((build_audio_index files).getD (i + 1) dummySeg).start) ∧
    last_end (build_audio_index files) =
      ((build_audio_index files).getD (files.length - 1) dummySeg).stop ∧
    last_end (build_audio_index files) = durSum files := by
  have hlen0 : 0 < files.length := by
    rcases files with _ | ⟨f, r⟩
    · exact absurd rfl hne
    · simp
  have hsum : last_end (build_audio_index files) = durSum files := by
    have := last_end_buildIndexFrom files hne 0
    unfold build_audio_index
    rw [this]
    ring
  refine ⟨buildIndexFrom_length files 0, ?_, ?_, ?_, ?_, hsum⟩
  · rw [build_audio_index, buildIndexFrom_getD files 0 0 hlen0]
    simp [durSum]
  · intro i hi
    rw [build_audio_index, buildIndexFrom_getD files 0 i hi]
    refine ⟨rfl, ?_⟩
    rw [durSum_take_succ files i hi]
    ring
  · intro i hi
    rw [build_audio_index, buildIndexFrom_getD files 0 i (by omega),
      buildIndexFrom_getD files 0 (i + 1) hi]
  · have hl : files.length - 1 < files.length := by omega
    rw [hsum, build_audio_index, buildIndexFrom_getD files 0 (files.length - 1) hl]
    have he : files.length - 1 + 1 = files.length := by omega
    rw [he, List.take_length]
    ring

theorem c2_build_audio_index_invariants_witness :
    (([("a", (30 : ℚ)), ("b", 45)] : List (String × ℚ)) ≠ []) ∧
    ((build_audio_index [("a", (30 : ℚ)), ("b", 45)]).length =
        ([("a", (30 : ℚ)), ("b", 45)] : List (String × ℚ)).length ∧
      ((build_audio_index [("a", (30 : ℚ)), ("b", 45)]).getD 0 dummySeg).start = 0 ∧
      (∀ i, i < ([("a", (30 : ℚ)), ("b", 45)] : List (String × ℚ)).length →
        ((build_audio_index [("a", (30 : ℚ)), ("b", 45)]).getD i dummySeg).filename =
          (([("a", (30 : ℚ)), ("b", 45)] : List (String × ℚ)).getD i ("", 0)).1 ∧
        ((build_audio_index [("a", (30 : ℚ)), ("b", 45)]).getD i dummySeg).stop =
          ((build_audio_index [("a", (30 : ℚ)), ("b", 45)]).getD i dummySeg).start +
            (([("a", (30 : ℚ)), ("b", 45)] : List (String × ℚ)).getD i ("", 0)).2) ∧
      (∀ i, i + 1 < ([("a", (30 : ℚ)), ("b", 45)] : List (String × ℚ)).length →
        ((build_audio_index [("a", (30 : ℚ)), ("b", 45)]).getD i dummySeg).stop =
          ((build_audio_index [("a", (30 : ℚ)), ("b", 45)]).getD (i + 1) dummySeg).start) ∧
      last_end (build_audio_index [("a", (30 : ℚ)), ("b", 45)]) =
        ((build_audio_index [("a", (30 : ℚ)), ("b", 45)]).getD
          (([("a", (30 : ℚ)), ("b", 45)] : List (String × ℚ)).length - 1) dummySeg).stop ∧
      last_end (build_audio_index [("a", (30 : ℚ)), ("b", 45)]) =
        durSum [("a", (30 : ℚ)), ("b", 45)]) :=
  ⟨by simp, c2_build_audio_index_invariants [("a", (30 : ℚ)), ("b", 45)] (by simp)⟩

/-- C3: `Resolve` returns the unique segment whose half-open `[start, end)`
interval contains the offset, together with `intraFileOffset = offset -
start`; it returns NotFound exactly when the offset is negative or at least
the total duration (which subsumes the empty-timeline case, whose total is
0); in particular it succeeds at `total - e` for any `0 < e ≤ total` and
returns NotFound at exactly `total`. -/
theorem c3_resolve_contract (files : List (String × ℚ)) (x : ℚ)
    (hd : ∀ p ∈ files, 0 ≤ p.2) :
    (resolve (build_audio_index files) x = none ↔
      x < 0 ∨ last_end (build_audio_index files) ≤ x) ∧
    (∀ fn off, resolve (build_audio_index files) x = some (fn, off) →
      ∃ seg ∈ build_audio_index files, seg.filename = fn ∧
        seg.start ≤ x ∧ x < seg.stop ∧ off = x - seg.start ∧
        ∀ seg2 ∈ build_audio_index files, seg2.start ≤ x → x < seg2.stop → seg2 = seg) ∧
    (∀ e : ℚ, 0 < e → e ≤ last_end (build_audio_index files) →
      (resolve (build_audio_index files)
        (last_end (build_audio_index files) - e)).isSome = true) ∧
    resolve (build_audio_index files) (last_end (build_audio_index files)) = none ∧
    resolve ([] : List Seg) x = none := by
  refine ⟨resolve_build_none_iff files hd x, ?_, ?_, ?_, by simp [resolve]⟩
  · intro fn off h
    obtain ⟨seg, hmem, hfn, h1, h2, h3⟩ := resolve_some_spec (build_audio_index files) x fn off h
    refine ⟨seg, hmem, hfn, h1, h2, h3, ?_⟩
    intro seg2 hmem2 h4 h5
    exact seg_unique (build_audio_index files) (buildIndexFrom_pairwise files hd 0) x
      seg2 seg hmem2 hmem h4 h5 h1 h2
  · intro e he1 he2
    cases hres : resolve (build_audio_index files) (last_end (build_audio_index files) - e) with
    | none =>
      rcases (resolve_build_none_iff files hd _).mp hres with h | h <;> linarith
    | some v => rfl
  · exact (resolve_build_none_iff files hd _).mpr (Or.inr (le_refl _))

theorem c3_resolve_contract_witness :
    (∀ p ∈ ([("a", (60 : ℚ))] : List (String × ℚ)), 0 ≤ p.2) ∧
    ((resolve (build_audio_index [("a", (60 : ℚ))]) 30 = none ↔
      (30 : ℚ) < 0 ∨ last_end (build_audio_index [("a", (60 : ℚ))]) ≤ 30) ∧
    (∀ fn off, resolve (build_audio_index [("a", (60 : ℚ))]) 30 = some (fn, off) →
      ∃ seg ∈ build_audio_index [("a", (60 : ℚ))], seg.filename = fn ∧
        seg.start ≤ 30 ∧ (30 : ℚ) < seg.stop ∧ off = 30 - seg.start ∧
        ∀ seg2 ∈ build_audio_index [("a", (60 : ℚ))],
          seg2.start ≤ 30 → (30 : ℚ) < seg2.stop → seg2 = seg) ∧
    (∀ e : ℚ, 0 < e → e ≤ last_end (build_audio_index [("a", (60 : ℚ))]) →
      (resolve (build_audio_index [("a", (60 : ℚ))])
        (last_end (build_audio_index [("a", (60 : ℚ))]) - e)).isSome = true) ∧
    resolve (build_audio_index [("a", (60 : ℚ))])
      (last_end (build_audio_index [("a", (60 : ℚ))])) = none ∧
    resolve ([] : List Seg) 30 = none) :=
  ⟨by decide, c3_resolve_contract [("a", (60 : ℚ))] 30 (by decide)⟩

/-
Fold-based min/max (Python `min`/`max` over a non-empty list).
-/

theorem foldl_min_le_init (cs : List ℚ) : ∀ b : ℚ, cs.foldl min b ≤ b := by
  induction cs with
  | nil => intro b; simp
  | cons a cs ih =>
    intro b
    simp only [List.foldl_cons]
    exact le_trans (ih (min b a)) (min_le_left _ _)

theorem foldl_min_le_mem (cs : List ℚ) : ∀ (b x : ℚ), x ∈ cs → cs.foldl min b ≤ x := by
  induction cs with
  | nil => intro b x hx; simp at hx
  | cons a cs ih =>
    intro b x hx
    simp only [List.foldl_cons]
    rcases List.mem_cons.mp hx with rfl | hx2
    · exact le_trans (foldl_min_le_init cs (min b x)) (min_le_right _ _)
    · exact ih _ x hx2

theorem foldl_min_mem (cs : List ℚ) : ∀ b : ℚ, cs.foldl min b = b ∨ cs.foldl min b ∈ cs := by
  induction cs with
  | nil => intro b; left; rfl
  | cons a cs ih =>
    intro b
    simp only [List.foldl_cons]
    rcases ih (min b a) with h | h
    · rw [h]
      rcases le_total b a with hba | hab
      · left
        exact min_eq_left hba
      · right
        rw [min_eq_right hab]
        exact List.mem_cons_self _ _
    · right
      exact List.mem_cons_of_mem _ h

theorem foldl_max_init_le (cs : List ℚ) : ∀ b : ℚ, b ≤ cs.foldl max b := by
  induction cs with
  | nil => intro b; simp
  | cons a cs ih =>
    intro b
    simp only [List.foldl_cons]
    exact le_trans (le_max_left _ _) (ih (max b a))

theorem foldl_max_mem_le (cs : List ℚ) : ∀ (b x : ℚ), x ∈ cs → x ≤ cs.foldl max b := by
  induction cs with
  | nil => intro b x hx; simp at hx
  | cons a cs ih =>
    intro b x hx
    simp only [List.foldl_cons]
    rcases List.mem_cons.mp hx with rfl | hx2
    · exact le_trans (le_max_right _ _) (foldl_max_init_le cs (max b x))
    · exact ih _ x hx2

theorem foldl_max_mem (cs : List ℚ) : ∀ b : ℚ, cs.foldl max b = b ∨ cs.foldl max b ∈ cs := by
  induction cs with
  | nil => intro b; left; rfl
  | cons a cs ih =>
    intro b
    simp only [List.foldl_cons]
    rcases ih (max b a) with h | h
    · rw [h]
      rcases le_total a b with hab | hba
      · left
        exact max_eq_left hab
      · right
        rw [max_eq_right hba]
        exact List.mem_cons_self _ _
    · right
      exact List.mem_cons_of_mem _ h

/-- C5: for a non-empty selection, `ComputeSpan` returns
`(min absoluteOffset − preRoll, max absoluteOffset + preRoll)` — symmetric
padding on both ends; an empty selection fails with the empty-selection
error; a single event with absolute offset 100 and pre-roll 10 gives
`(90, 110)`. -/
theorem c5_compute_span (selected : List AnnQso) (pre : ℚ) :
    (selected = [] → compute_span selected pre = .error "No QSOs in selected range") ∧
    (selected ≠ [] → ∃ a b, compute_span selected pre = .ok (a, b) ∧
      (∀ q ∈ selected, a ≤ q.abs_rec_second - pre ∧ q.abs_rec_second + pre ≤ b) ∧
      (∃ q ∈ selected, a = q.abs_rec_second - pre) ∧
      (∃ q ∈ selected, b = q.abs_rec_second + pre)) ∧
    compute_span [⟨⟨⟨2024, 1, 1, 0, 0⟩, [], [], [], [], [], [], [], []⟩, 1, 100, none, 0⟩] 10 =
      .ok (90, 110) := by
  refine ⟨?_, ?_, by norm_num [compute_span, List.foldl]⟩
  · intro h
    subst h
    rfl
  · intro hne
    rcases selected with _ | ⟨q, rest⟩
    · exact absurd rfl hne
    refine ⟨((q :: rest).map (·.abs_rec_second)).foldl min q.abs_rec_second - pre,
      ((q :: rest).map (·.abs_rec_second)).foldl max q.abs_rec_second + pre, rfl, ?_, ?_, ?_⟩
    · intro q2 hq2
      have hmem : q2.abs_rec_second ∈ (q :: rest).map (·.abs_rec_second) :=
        List.mem_map.mpr ⟨q2, hq2, rfl⟩
      constructor
      · have := foldl_min_le_mem ((q :: rest).map (·.abs_rec_second)) q.abs_rec_second
          q2.abs_rec_second hmem
        linarith
      · have := foldl_max_mem_le ((q :: rest).map (·.abs_rec_second)) q.abs_rec_second
          q2.abs_rec_second hmem
        linarith
    · rcases foldl_min_mem ((q :: rest).map (·.abs_rec_second)) q.abs_rec_second with h | h
      · exact ⟨q, List.mem_cons_self _ _, by rw [h]⟩
      · obtain ⟨q2, hq2, heq⟩ := List.mem_map.mp h
        exact ⟨q2, hq2, by rw [heq]⟩
    · rcases foldl_max_mem ((q :: rest).map (·.abs_rec_second)) q.abs_rec_second with h | h
      · exact ⟨q, List.mem_cons_self _ _, by rw [h]⟩
      · obtain ⟨q2, hq2, heq⟩ := List.mem_map.mp h
        exact ⟨q2, hq2, by rw [heq]⟩

theorem c5_compute_span_witness :
    (([] : List AnnQso) = [] →
      compute_span [] (10 : ℚ) = .error "No QSOs in selected range") ∧
    (([] : List AnnQso) ≠ [] → ∃ a b, compute_span [] (10 : ℚ) = .ok (a, b) ∧
      (∀ q ∈ ([] : List AnnQso), a ≤ q.abs_rec_second - 10 ∧ q.abs_rec_second + 10 ≤ b) ∧
      (∃ q ∈ ([] : List AnnQso), a = q.abs_rec_second - 10) ∧
      (∃ q ∈ ([] : List AnnQso), b = q.abs_rec_second + 10)) ∧
    compute_span [⟨⟨⟨2024, 1, 1, 0, 0⟩, [], [], [], [], [], [], [], []⟩, 1, 100, none, 0⟩] 10 =
      .ok (90, 110) :=
  c5_compute_span [] 10

/-- C9: `selectRange` rejects a start index above the end index and any
non-positive index with a selection error (it never reorders the bounds),
and for a valid range the selected events are exactly those whose 1-based
index lies in the inclusive range, in their original order (a sublist of
the session's event list). -/
theorem c9_select_range (qsos : List AnnQso) (pre : ℚ) (s e : ℤ) :
    ((s ≤ 0 ∨ e ≤ 0 ∨ e < s) →
      contest_download_selection qsos pre s e = .error "Invalid range") ∧
    (∀ sel a b, contest_download_selection qsos pre s e = .ok (sel, a, b) →
      (0 < s ∧ 0 < e ∧ s ≤ e) ∧
      sel = qsos.filter (fun q => decide (s ≤ (q.index : ℤ)) && decide ((q.index : ℤ) ≤ e)) ∧
      (∀ q, q ∈ sel ↔ q ∈ qsos ∧ s ≤ (q.index : ℤ) ∧ (q.index : ℤ) ≤ e) ∧
      sel.Sublist qsos) := by
  constructor
  · intro h
    unfold contest_download_selection
    rw [if_pos h]
  · intro sel a b h
    unfold contest_download_selection at h
    by_cases hcond : (s ≤ 0 ∨ e ≤ 0 ∨ e < s)
    · rw [if_pos hcond] at h
      simp at h
    · rw [if_neg hcond] at h
      push_neg at hcond
      cases hspan : compute_span
          (qsos.filter fun q => decide (s ≤ (q.index : ℤ)) && decide ((q.index : ℤ) ≤ e)) pre with
      | error e2 => rw [hspan] at h; simp at h
      | ok p =>
        rw [hspan] at h
        obtain ⟨a0, b0⟩ := p
        simp only [Except.ok.injEq, Prod.mk.injEq] at h
        obtain ⟨h1, h2, h3⟩ := h
        subst h1
        refine ⟨⟨hcond.1, hcond.2.1, by omega⟩, rfl, ?_, List.filter_sublist _⟩
        intro q
        simp [List.mem_filter]

theorem c9_select_range_witness :
    ((((3 : ℤ) ≤ 0 ∨ (1 : ℤ) ≤ 0 ∨ (1 : ℤ) < 3) →
      contest_download_selection [] (10 : ℚ) 3 1 = .error "Invalid range") ∧
    (∀ sel a b, contest_download_selection [] (10 : ℚ) 3 1 = .ok (sel, a, b) →
      ((0 : ℤ) < 3 ∧ (0 : ℤ) < 1 ∧ (3 : ℤ) ≤ 1) ∧
      sel = List.filter
        (fun q => decide ((3 : ℤ) ≤ (q.index : ℤ)) && decide ((q.index : ℤ) ≤ 1)) [] ∧
      (∀ q, q ∈ sel ↔ q ∈ ([] : List AnnQso) ∧ (3 : ℤ) ≤ (q.index : ℤ) ∧ (q.index : ℤ) ≤ 1) ∧
      sel.Sublist [])) :=
  c9_select_range [] 10 3 1

theorem round3_zero : round3 0 = 0 := by
  norm_num [round3, roundHalfEven]

theorem attach_spec (idx : List Seg) (recS contS : DateTime) (pre : ℚ) (qsos : List Qso)
    (hT : 0 < last_end idx) (a : AnnQso)
    (ha : a ∈ attach_audio_positions idx recS contS pre qsos) :
    a.abs_rec_second = secondsBetween contS recS + secondsBetween a.datetime contS ∧
    ((∃ fn off,
        resolve idx (max 0 (min (a.abs_rec_second - pre) (last_end idx - 1 / 1000))) =
          some (fn, off) ∧
        a.file = some fn ∧ a.file_offset = round3 off) ∨
      (resolve idx (max 0 (min (a.abs_rec_second - pre) (last_end idx - 1 / 1000))) = none ∧
        a.file = none ∧ a.file_offset = round3 0)) := by
  simp only [attach_audio_positions] at ha
  obtain ⟨p, hp, heq⟩ := List.mem_map.mp ha
  rw [if_neg (not_le.mpr hT)] at heq
  cases hres : resolve idx
      (max 0 (min (secondsBetween contS recS + secondsBetween p.2.datetime contS - pre)
        (last_end idx - 1 / 1000))) with
  | none =>
    rw [hres] at heq
    subst heq
    exact ⟨rfl, Or.inr ⟨hres, rfl, rfl⟩⟩
  | some v =>
    obtain ⟨fn, off⟩ := v
    rw [hres] at heq
    subst heq
    exact ⟨rfl, Or.inl ⟨fn, off, hres, rfl, rfl⟩⟩

/-- C1: with a positive-duration, non-empty timeline, `Annotate` stores the
un-clamped, un-pre-rolled `absoluteOffset = (contestStart − recordingStart) +
(timestamp − contestStart)` for every event, resolves the pre-rolled
position clamped into `[0, total − 0.001]` to a non-null source file and
offset (never NotFound), and an event whose pre-rolled position is negative
resolves to the first segment at intra-file offset 0; `sourceFile` is null
only in the non-positive-total-duration branch, which cannot occur here. -/
theorem c1_annotate_positions (files : List (String × ℚ)) (rec_start contest_start : DateTime)
    (pre : ℚ) (qsos : List Qso) (hne : files ≠ []) (hd : ∀ p ∈ files, 0 < p.2) :
    0 < last_end (build_audio_index files) ∧
    ∀ a ∈ attach_audio_positions (build_audio_index files) rec_start contest_start pre qsos,
      a.abs_rec_second =
        secondsBetween contest_start rec_start + secondsBetween a.datetime contest_start ∧
      (∃ fn off,
        resolve (build_audio_index files)
          (max 0 (min (a.abs_rec_second - pre)
            (last_end (build_audio_index files) - 1 / 1000))) = some (fn, off) ∧
        a.file = some fn ∧ a.file_offset = round3 off) ∧
      a.file ≠ none ∧
      (a.abs_rec_second - pre < 0 → a.file = some (files.getD 0 ("", 0)).1 ∧
        a.file_offset = 0) := by
  have hd0 : ∀ p ∈ files, 0 ≤ p.2 := fun p hp => le_of_lt (hd p hp)
  have hTpos : 0 < last_end (build_audio_index files) := by
    rcases files with _ | ⟨f, rest⟩
    · exact absurd rfl hne
    · have hle := last_end_buildIndexFrom (f :: rest) (by simp) 0
      unfold build_audio_index
      rw [hle]
      have h1 : 0 < f.2 := hd f (by simp)
      have h2 : 0 ≤ durSum rest :=
        durSum_nonneg rest (fun p hp => hd0 p (by simp [hp]))
      simp only [durSum, List.map_cons, List.sum_cons]
      simp only [durSum] at h2
      linarith
  refine ⟨hTpos, ?_⟩
  intro a ha
  obtain ⟨habs, hdisj⟩ :=
    attach_spec (build_audio_index files) rec_start contest_start pre qsos hTpos a ha
  rcases hdisj with ⟨fn, off, hres, hfile, hoff⟩ | ⟨hres, hfile, hoff⟩
  · refine ⟨habs, ⟨fn, off, hres, hfile, hoff⟩, by simp [hfile], ?_⟩
    intro hneg
    have hX : max 0 (min (a.abs_rec_second - pre)
        (last_end (build_audio_index files) - 1 / 1000)) = 0 :=
      max_eq_left (le_trans (min_le_left _ _) (le_of_lt hneg))
    rw [hX, resolve_build_zero files hne hd] at hres
    simp only [Option.some.injEq, Prod.mk.injEq] at hres
    refine ⟨by rw [hfile, hres.1], by rw [hoff, ← hres.2, round3_zero]⟩
  · exfalso
    have hX0 : (0 : ℚ) ≤ max 0 (min (a.abs_rec_second - pre)
        (last_end (build_audio_index files) - 1 / 1000)) := le_max_left 0 _
    have hXT : max 0 (min (a.abs_rec_second - pre)
        (last_end (build_audio_index files) - 1 / 1000)) <
        last_end (build_audio_index files) := by
      apply max_lt hTpos
      exact lt_of_le_of_lt (min_le_right _ _) (by linarith)
    rcases (resolve_build_none_iff files hd0 _).mp hres with h | h <;> linarith

theorem c1_annotate_positions_witness :
    (([("a", (60 : ℚ)), ("b", 60)] : List (String × ℚ)) ≠ [] ∧
      (∀ p ∈ ([("a", (60 : ℚ)), ("b", 60)] : List (String × ℚ)), 0 < p.2)) ∧
    (0 < last_end (build_audio_index [("a", (60 : ℚ)), ("b", 60)]) ∧
    ∀ a ∈ attach_audio_positions (build_audio_index [("a", (60 : ℚ)), ("b", 60)])
        ⟨2024, 6, 1, 12, 0⟩ ⟨2024, 6, 1, 12, 0⟩ 10
        [⟨⟨2024, 6, 1, 12, 0⟩, "14250".data, "PH".data, "W1AW".data, "59".data, "001".data,
          "K2ABC".data, "59".data, "042".data⟩],
      a.abs_rec_second = secondsBetween ⟨2024, 6, 1, 12, 0⟩ ⟨2024, 6, 1, 12, 0⟩ +
        secondsBetween a.datetime ⟨2024, 6, 1, 12, 0⟩ ∧
      (∃ fn off,
        resolve (build_audio_index [("a", (60 : ℚ)), ("b", 60)])
          (max 0 (min (a.abs_rec_second - 10)
            (last_end (build_audio_index [("a", (60 : ℚ)), ("b", 60)]) - 1 / 1000))) =
          some (fn, off) ∧
        a.file = some fn ∧ a.file_offset = round3 off) ∧
      a.file ≠ none ∧
      (a.abs_rec_second - 10 < 0 →
        a.file = some (([("a", (60 : ℚ)), ("b", 60)] : List (String × ℚ)).getD 0 ("", 0)).1 ∧
        a.file_offset = 0)) :=
  ⟨⟨by simp, by decide⟩,
    c1_annotate_positions [("a", (60 : ℚ)), ("b", 60)] ⟨2024, 6, 1, 12, 0⟩ ⟨2024, 6, 1, 12, 0⟩
      10 [⟨⟨2024, 6, 1, 12, 0⟩, "14250".data, "PH".data, "W1AW".data, "59".data, "001".data,
        "K2ABC".data, "59".data, "042".data⟩] (by simp) (by decide)⟩

/-- C10: an event appears in the `contest_view` listing iff it passes all
supplied filters — when a call query is given its uppercased form is a
substring of the uppercased own call or their call, a parsed from-bound is
not after the event's timestamp, a parsed to-bound is not before it (both
inclusive) — an unparseable or empty time bound imposes no constraint, and
the result is a sublist of the events in original order. -/
theorem c10_contest_view_filter (qsos : List Qso) (call_raw from_raw to_raw : List Char)
    (q : Qso) :
    (q ∈ contest_view qsos call_raw from_raw to_raw ↔
      q ∈ qsos ∧
      (upperL (trimWs call_raw) ≠ [] →
        substrB (upperL (trimWs call_raw)) (upperL q.mycall) = true ∨
        substrB (upperL (trimWs call_raw)) (upperL q.hiscall) = true) ∧
      (∀ t, timeBound from_raw = some t → dtLtB q.datetime t = false) ∧
      (∀ t, timeBound to_raw = some t → dtLtB t q.datetime = false)) ∧
    (contest_view qsos call_raw from_raw to_raw).Sublist qsos ∧
    (timeBound from_raw = none →
      contest_view qsos call_raw from_raw to_raw = contest_view qsos call_raw [] to_raw) := by
  refine ⟨?_, by simp only [contest_view]; exact List.filter_sublist _, ?_⟩
  · simp only [contest_view, List.mem_filter]
    cases hf : timeBound from_raw <;> cases ht : timeBound to_raw <;>
      simp [hf, ht, List.isEmpty_iff] <;> tauto
  · intro h
    have h0 : timeBound [] = (none : Option DateTime) := rfl
    simp only [contest_view, h, h0]

/-
Millisecond arithmetic for the window extractor.
-/

theorem pyInt_eq_floor (q : ℚ) (h : 0 ≤ q) : pyInt q = ⌊q⌋ := by
  unfold pyInt
  rw [Rat.floor_def, Int.tdiv_eq_ediv (Rat.num_nonneg.mpr h) (by positivity)]

theorem pyInt_mono (a b : ℚ) (ha : 0 ≤ a) (hab : a ≤ b) : pyInt a ≤ pyInt b := by
  rw [pyInt_eq_floor a ha, pyInt_eq_floor b (le_trans ha hab)]
  exact Int.floor_le_floor hab

theorem pyInt_zero : pyInt 0 = 0 := rfl

theorem slicesLen_overlap (sms ems : ℤ) : ∀ idx : List Seg,
    slicesLen (idx.filterMap fun f =>
      if min ems (pyInt (f.stop * 1000)) ≤ max sms (pyInt (f.start * 1000)) then none
      else some ⟨f.filename, max sms (pyInt (f.start * 1000)) - pyInt (f.start * 1000),
        min ems (pyInt (f.stop * 1000)) - pyInt (f.start * 1000)⟩) =
    (idx.map fun f =>
      max 0 (min ems (pyInt (f.stop * 1000)) - max sms (pyInt (f.start * 1000)))).sum := by
  intro idx
  induction idx with
  | nil => rfl
  | cons f idx ih =>
    rw [List.filterMap_cons, List.map_cons, List.sum_cons]
    by_cases hc : min ems (pyInt (f.stop * 1000)) ≤ max sms (pyInt (f.start * 1000))
    · rw [if_pos hc, ih]
      omega
    · rw [if_neg hc]
      have hlen : ∀ ss : List Slice,
          slicesLen (⟨f.filename, max sms (pyInt (f.start * 1000)) - pyInt (f.start * 1000),
            min ems (pyInt (f.stop * 1000)) - pyInt (f.start * 1000)⟩ :: ss) =
          (min ems (pyInt (f.stop * 1000)) - max sms (pyInt (f.start * 1000))) + slicesLen ss := by
        intro ss
        simp [slicesLen]
      rw [hlen, ih]
      omega

theorem filterMap_overlap_eq (sms ems : ℤ) : ∀ idx : List Seg,
    (idx.filterMap fun f =>
      if min ems (pyInt (f.stop * 1000)) ≤ max sms (pyInt (f.start * 1000)) then none
      else some ⟨f.filename, max sms (pyInt (f.start * 1000)) - pyInt (f.start * 1000),
        min ems (pyInt (f.stop * 1000)) - pyInt (f.start * 1000)⟩) =
    ((idx.filter fun f =>
      decide (max sms (pyInt (f.start * 1000)) < min ems (pyInt (f.stop * 1000)))).map
      fun f => (⟨f.filename, max sms (pyInt (f.start * 1000)) - pyInt (f.start * 1000),
        min ems (pyInt (f.stop * 1000)) - pyInt (f.start * 1000)⟩ : Slice)) := by
  intro idx
  induction idx with
  | nil => rfl
  | cons f idx ih =>
    rw [List.filterMap_cons]
    by_cases hc : min ems (pyInt (f.stop * 1000)) ≤ max sms (pyInt (f.start * 1000))
    · rw [if_pos hc, ih, List.filter_cons_of_neg]
      simp only [decide_eq_true_eq]
      exact not_lt.mpr hc
    · rw [if_neg hc, ih, List.filter_cons_of_pos, List.map_cons]
      simp only [decide_eq_true_eq]
      exact lt_of_not_le hc

theorem slice_sum_telescope (fs : List (String × ℚ)) : ∀ (t : ℚ) (sms ems : ℤ), 0 ≤ t →
    (∀ p ∈ fs, 0 ≤ p.2) →
    ((buildIndexFrom t fs).map fun f =>
      max 0 (min ems (pyInt (f.stop * 1000)) - max sms (pyInt (f.start * 1000)))).sum =
    max 0 (min ems (pyInt ((t + durSum fs) * 1000)) - max sms (pyInt (t * 1000))) := by
  induction fs with
  | nil =>
    intro t sms ems ht hd
    have h1 : min ems (pyInt ((t + durSum []) * 1000)) ≤ max sms (pyInt (t * 1000)) := by
      have : t + durSum [] = t := by simp [durSum]
      rw [this]
      exact le_trans (min_le_right _ _) (le_max_right _ _)
    simp only [buildIndexFrom, List.map_nil, List.sum_nil]
    omega
  | cons f rest ih =>
    intro t sms ems ht hd
    obtain ⟨n, d⟩ := f
    have hd0 : 0 ≤ d := hd (n, d) (by simp)
    have hdr : ∀ p ∈ rest, 0 ≤ p.2 := fun p hp => hd p (by simp [hp])
    have hsum : 0 ≤ durSum rest := durSum_nonneg rest hdr
    simp only [buildIndexFrom, List.map_cons, List.sum_cons]
    rw [ih (t + d) sms ems (by linarith) hdr]
    have harg : (t + d + durSum rest) * 1000 = (t + durSum ((n, d) :: rest)) * 1000 := by
      simp only [durSum, List.map_cons, List.sum_cons]
      ring
    rw [harg]
    have hm1 : pyInt (t * 1000) ≤ pyInt ((t + d) * 1000) :=
      pyInt_mono _ _ (by positivity) (by nlinarith)
    have hsum2 : (0 : ℚ) ≤ (rest.map (·.2)).sum := hsum
    have hm2 : pyInt ((t + d) * 1000) ≤ pyInt ((t + durSum ((n, d) :: rest)) * 1000) := by
      refine pyInt_mono _ _ (by positivity) ?_
      simp only [durSum, List.map_cons, List.sum_cons]
      nlinarith [hsum2]
    omega

theorem clamp_cond_iff (T s e : ℚ) (hT : 0 ≤ T) :
    min T e ≤ max 0 s ↔ min T (max 0 e) ≤ min T (max 0 s) := by
  simp only [min_def, max_def]
  split_ifs <;> constructor <;> intro h0 <;> linarith

/-- C4 (amended): the window builder fails with the empty-window error iff
after clamping both bounds into `[0, total]` the end is at most the start.
Otherwise, with `sms`/`ems` the clamped bounds truncated to milliseconds:
when `sms < ems` it returns exactly the overlapping segments' slices, in
ascending segment order, each slice the intersection of the window with
that segment in file-local milliseconds, of total length `ems - sms` (no
boundary millisecond dropped or double-counted); when the window clamps to
a positive but sub-millisecond span (`ems = sms`) it fails with the
no-audio error instead of returning an empty concatenation.  For two
60-second segments and window `[55, 65)` the result is the last 5 s of the
first file followed by the first 5 s of the second. -/
theorem c4_extract_window_amended (files : List (String × ℚ)) (s e : ℚ)
    (hne : files ≠ []) (hd : ∀ p ∈ files, 0 ≤ p.2) :
    (build_audio_window (build_audio_index files) s e =
        .error "Requested audio window is empty or out of range." ↔
      min (last_end (build_audio_index files)) (max 0 e) ≤
        min (last_end (build_audio_index files)) (max 0 s)) ∧
    (¬ min (last_end (build_audio_index files)) (max 0 e) ≤
        min (last_end (build_audio_index files)) (max 0 s) →
      (pyInt (max 0 s * 1000) < pyInt (min (last_end (build_audio_index files)) e * 1000) →
        ∃ slices, build_audio_window (build_audio_index files) s e = .ok slices ∧
          slices = ((build_audio_index files).filter fun f =>
            decide (max (pyInt (max 0 s * 1000)) (pyInt (f.start * 1000)) <
              min (pyInt (min (last_end (build_audio_index files)) e * 1000))
                (pyInt (f.stop * 1000)))).map
            (fun f => ⟨f.filename,
              max (pyInt (max 0 s * 1000)) (pyInt (f.start * 1000)) - pyInt (f.start * 1000),
              min (pyInt (min (last_end (build_audio_index files)) e * 1000))
                (pyInt (f.stop * 1000)) - pyInt (f.start * 1000)⟩) ∧
          slicesLen slices =
            pyInt (min (last_end (build_audio_index files)) e * 1000) -
              pyInt (max 0 s * 1000)) ∧
      (pyInt (min (last_end (build_audio_index files)) e * 1000) ≤ pyInt (max 0 s * 1000) →
        build_audio_window (build_audio_index files) s e =
          .error "No audio in requested window.")) ∧
    build_audio_window (build_audio_index [("a", (60 : ℚ)), ("b", 60)]) 55 65 =
      .ok [⟨"a", 55000, 60000⟩, ⟨"b", 0, 5000⟩] := by
  have hle : last_end (build_audio_index files) = durSum files := by
    unfold build_audio_index
    rw [last_end_buildIndexFrom files hne 0]
    ring
  have hT0 : 0 ≤ last_end (build_audio_index files) := by
    rw [hle]
    exact durSum_nonneg files hd
  have hempty : (build_audio_index files).isEmpty = false := by
    rcases hb : build_audio_index files with _ | ⟨a, l⟩
    · exact absurd hb (buildIndexFrom_ne_nil files 0 hne)
    · rfl
  have hlen_eq : slicesLen ((build_audio_index files).filterMap fun f =>
      if min (pyInt (min (last_end (build_audio_index files)) e * 1000))
          (pyInt (f.stop * 1000)) ≤
          max (pyInt (max 0 s * 1000)) (pyInt (f.start * 1000)) then none
      else some ⟨f.filename,
        max (pyInt (max 0 s * 1000)) (pyInt (f.start * 1000)) - pyInt (f.start * 1000),
        min (pyInt (min (last_end (build_audio_index files)) e * 1000))
          (pyInt (f.stop * 1000)) - pyInt (f.start * 1000)⟩) =
      max 0 (min (pyInt (min (last_end (build_audio_index files)) e * 1000))
          (pyInt ((0 + durSum files) * 1000)) -
        max (pyInt (max 0 s * 1000)) (pyInt ((0 : ℚ) * 1000))) := by
    rw [slicesLen_overlap, build_audio_index,
      slice_sum_telescope files 0 _ _ (le_refl 0) hd]
  constructor
  · -- the empty-window error iff the spec-side clamp comparison
    rw [← clamp_cond_iff _ _ _ hT0]
    simp only [build_audio_window, hempty, Bool.false_eq_true, if_false]
    by_cases hcode : min (last_end (build_audio_index files)) e ≤ max 0 s
    · rw [if_pos hcode]
      simp [hcode]
    · rw [if_neg hcode]
      constructor
      · intro h
        split_ifs at h
        exact absurd (Except.error.inj h) (by decide)
      · intro h
        exact absurd h hcode
  constructor
  · intro hclamp
    have hcode : ¬ min (last_end (build_audio_index files)) e ≤ max 0 s := by
      rw [clamp_cond_iff _ _ _ hT0]
      exact hclamp
    have hpos : (0 : ℚ) ≤ max 0 s := le_max_left 0 s
    have hlt : max 0 s < min (last_end (build_audio_index files)) e := lt_of_not_le hcode
    have hsms0 : 0 ≤ pyInt (max 0 s * 1000) := by
      have := pyInt_mono 0 (max 0 s * 1000) (le_refl 0) (by positivity)
      rwa [pyInt_zero] at this
    have hsmsle : pyInt (max 0 s * 1000) ≤
        pyInt (min (last_end (build_audio_index files)) e * 1000) :=
      pyInt_mono _ _ (by positivity) (by nlinarith)
    have hemsle : pyInt (min (last_end (build_audio_index files)) e * 1000) ≤
        pyInt ((0 + durSum files) * 1000) := by
      refine pyInt_mono _ _ (by nlinarith) ?_
      have h1 : min (last_end (build_audio_index files)) e ≤ durSum files :=
        hle ▸ min_le_left _ _
      nlinarith [h1]
    have hT0m : pyInt ((0 : ℚ) * 1000) = 0 := by
      norm_num [pyInt_zero]
    have hlen_val : slicesLen ((build_audio_index files).filterMap fun f =>
        if min (pyInt (min (last_end (build_audio_index files)) e * 1000))
            (pyInt (f.stop * 1000)) ≤
            max (pyInt (max 0 s * 1000)) (pyInt (f.start * 1000)) then none
        else some ⟨f.filename,
          max (pyInt (max 0 s * 1000)) (pyInt (f.start * 1000)) - pyInt (f.start * 1000),
          min (pyInt (min (last_end (build_audio_index files)) e * 1000))
            (pyInt (f.stop * 1000)) - pyInt (f.start * 1000)⟩) =
        pyInt (min (last_end (build_audio_index files)) e * 1000) -
          pyInt (max 0 s * 1000) := by
      rw [hlen_eq, hT0m]
      omega
    constructor
    · intro hms
      refine ⟨_, ?_, filterMap_overlap_eq _ _ (build_audio_index files), hlen_val⟩
      simp only [build_audio_window, hempty, Bool.false_eq_true, if_false]
      rw [if_neg hcode, if_neg (by rw [hlen_val]; omega)]
    · intro hms
      simp only [build_audio_window, hempty, Bool.false_eq_true, if_false]
      rw [if_neg hcode, if_pos (by rw [hlen_val]; omega)]
  · have hidx : build_audio_index [("a", (60 : ℚ)), ("b", 60)] =
        [⟨"a", 0, 60⟩, ⟨"b", 60, 120⟩] := by
      norm_num [build_audio_index, buildIndexFrom]
    have hle2 : last_end [(⟨"a", 0, 60⟩ : Seg), ⟨"b", 60, 120⟩] = 120 := by
      norm_num [last_end, List.getLast?]
    have p55 : pyInt (55000 : ℚ) = 55000 := by norm_num [pyInt]
    have p65 : pyInt (65000 : ℚ) = 65000 := by norm_num [pyInt]
    have q0 : pyInt (0 : ℚ) = 0 := by norm_num [pyInt]
    have q60 : pyInt (60000 : ℚ) = 60000 := by norm_num [pyInt]
    have q120 : pyInt (120000 : ℚ) = 120000 := by norm_num [pyInt]
    rw [hidx]
    simp only [build_audio_window, hle2, List.isEmpty]
    norm_num [List.filterMap, slicesLen, p55, p65, q0, q60, q120]

theorem c4_extract_window_amended_witness :
    (([("a", (60 : ℚ)), ("b", 60)] : List (String × ℚ)) ≠ [] ∧
      (∀ p ∈ ([("a", (60 : ℚ)), ("b", 60)] : List (String × ℚ)), 0 ≤ p.2)) ∧
    ((build_audio_window (build_audio_index [("a", (60 : ℚ)), ("b", 60)]) 55 65 =
        .error "Requested audio window is empty or out of range." ↔
      min (last_end (build_audio_index [("a", (60 : ℚ)), ("b", 60)])) (max 0 65) ≤
        min (last_end (build_audio_index [("a", (60 : ℚ)), ("b", 60)])) (max 0 55)) ∧
    (¬ min (last_end (build_audio_index [("a", (60 : ℚ)), ("b", 60)])) (max 0 65) ≤
        min (last_end (build_audio_index [("a", (60 : ℚ)), ("b", 60)])) (max 0 55) →
      (pyInt (max 0 55 * 1000) <
          pyInt (min (last_end (build_audio_index [("a", (60 : ℚ)), ("b", 60)])) 65 * 1000) →
        ∃ slices,
          build_audio_window (build_audio_index [("a", (60 : ℚ)), ("b", 60)]) 55 65 =
            .ok slices ∧
          slices = ((build_audio_index [("a", (60 : ℚ)), ("b", 60)]).filter fun f =>
            decide (max (pyInt (max 0 55 * 1000)) (pyInt (f.start * 1000)) <
              min (pyInt (min (last_end (build_audio_index [("a", (60 : ℚ)), ("b", 60)]))
                  65 * 1000))
                (pyInt (f.stop * 1000)))).map
            (fun f => ⟨f.filename,
              max (pyInt (max 0 55 * 1000)) (pyInt (f.start * 1000)) - pyInt (f.start * 1000),
              min (pyInt (min (last_end (build_audio_index [("a", (60 : ℚ)), ("b", 60)]))
                  65 * 1000))
                (pyInt (f.stop * 1000)) - pyInt (f.start * 1000)⟩) ∧
          slicesLen slices =
            pyInt (min (last_end (build_audio_index [("a", (60 : ℚ)), ("b", 60)])) 65 * 1000) -
              pyInt (max 0 55 * 1000)) ∧
      (pyInt (min (last_end (build_audio_index [("a", (60 : ℚ)), ("b", 60)])) 65 * 1000) ≤
          pyInt (max 0 55 * 1000) →
        build_audio_window (build_audio_index [("a", (60 : ℚ)), ("b", 60)]) 55 65 =
          .error "No audio in requested window.")) ∧
    build_audio_window (build_audio_index [("a", (60 : ℚ)), ("b", 60)]) 55 65 =
      .ok [⟨"a", 55000, 60000⟩, ⟨"b", 0, 5000⟩]) :=
  ⟨⟨by simp, by decide⟩,
    c4_extract_window_amended [("a", (60 : ℚ)), ("b", 60)] 55 65 (by simp) (by decide)⟩

/-- C4 counterexample: for the two-60-second-file timeline and the window
`[0.0001, 0.0005)`, the clamped end strictly exceeds the clamped start (so
per the claim the function should return the concatenation of the
overlapping millisecond sub-ranges), yet the code raises the no-audio
error instead of returning a result. -/
theorem c4_extract_window_counterexample :
    min (last_end (build_audio_index [("a", (60 : ℚ)), ("b", 60)])) (max 0 (1 / 10000)) <
      min (last_end (build_audio_index [("a", (60 : ℚ)), ("b", 60)])) (max 0 (5 / 10000)) ∧
    build_audio_window (build_audio_index [("a", (60 : ℚ)), ("b", 60)]) (1 / 10000)
      (5 / 10000) = .error "No audio in requested window." := by
  constructor
  · have h120 : last_end (build_audio_index [("a", (60 : ℚ)), ("b", 60)]) = 120 := by
      norm_num [build_audio_index, buildIndexFrom, last_end, List.getLast?]
    rw [h120]
    rw [min_eq_right (by norm_num), min_eq_right (by norm_num)]
    norm_num
  · have hidx : build_audio_index [("a", (60 : ℚ)), ("b", 60)] =
        [⟨"a", 0, 60⟩, ⟨"b", 60, 120⟩] := by
      norm_num [build_audio_index, buildIndexFrom]
    have hle2 : last_end [(⟨"a", 0, 60⟩ : Seg), ⟨"b", 60, 120⟩] = 120 := by
      norm_num [last_end, List.getLast?]
    have pa : pyInt ((1 / 10 : ℚ)) = 0 := by norm_num [pyInt]; decide
    have pb : pyInt ((1 / 2 : ℚ)) = 0 := by norm_num [pyInt]; decide
    have q0 : pyInt (0 : ℚ) = 0 := by norm_num [pyInt]
    have q60 : pyInt (60000 : ℚ) = 60000 := by norm_num [pyInt]
    have q120 : pyInt (120000 : ℚ) = 120000 := by norm_num [pyInt]
    rw [hidx]
    simp only [build_audio_window, hle2, List.isEmpty]
    norm_num [List.filterMap, slicesLen, pa, pb, q0, q60, q120]

theorem parse_bad_spec (ls : List (List Char)) : ∀ (b : Bool),
    (∃ l ∈ ls, isQsoLine l = true ∧ ¬ (tokens (trimWs l)).length < 11 ∧
      strptimeDateHM ((tokens (trimWs l)).getD 3 []) ((tokens (trimWs l)).getD 4 []) = none) →
    parseCabrilloLines ls b = .error .malformedTimestamp := by
  induction ls with
  | nil => intro b h; simp at h
  | cons raw rest ih =>
    intro b h
    obtain ⟨l, hl, hql, hlenl, hdtl⟩ := h
    rcases List.mem_cons.mp hl with rfl | hl
    · exact parse_cons_event_bad l rest b hql hlenl hdtl
    · have hrest : parseCabrilloLines rest true = .error .malformedTimestamp :=
        ih true ⟨l, hl, hql, hlenl, hdtl⟩
      cases hq : isQsoLine raw with
      | true =>
        by_cases hlen : (tokens (trimWs raw)).length < 11
        · rw [parse_cons_event_short raw rest b hq hlen]
          exact hrest
        · cases hdt : strptimeDateHM ((tokens (trimWs raw)).getD 3 [])
            ((tokens (trimWs raw)).getD 4 []) with
          | none => exact parse_cons_event_bad raw rest b hq hlen hdt
          | some dt =>
            rw [parse_cons_event_good raw rest b dt hq hlen hdt, hrest]
      | false =>
        rw [parse_cons_nonevent raw rest b hq, ih b ⟨l, hl, hql, hlenl, hdtl⟩]

/-- C7: a line contributes as an event line exactly when its stripped form
begins with the `QSO:` marker; on a successful parse the headers are the
verbatim prefix of non-event lines (later non-event lines are discarded)
and the events are exactly the per-line contributions in order; an event
line with fewer than 11 tokens (fewer than 10 after the marker) yields no
event and no error; one with 10 tokens after the marker is accepted, as the
concrete two-line log shows. -/
theorem c7_line_classification (ls hs : List (List Char)) (qs : List Qso) :
    (∀ l, isQsoLine l = qsoMarker.isPrefixOf (trimWs l)) ∧
    (parse_cabrillo ls = .ok (hs, qs) →
      hs = ls.takeWhile (fun l => !isQsoLine l) ∧ qs = ls.filterMap line_event) ∧
    (∀ l, isQsoLine l = false → line_event l = none) ∧
    (∀ (l : List Char) (rest : List (List Char)) (b : Bool), isQsoLine l = true →
      (tokens (trimWs l)).length < 11 →
      line_event l = none ∧ parseCabrilloLines (l :: rest) b = parseCabrilloLines rest true) ∧
    parse_cabrillo
        ["QSO: 14000 CW 2024-01-01 0000 AA1AA 599 001 BB2BB 599".data,
         "QSO: 14000 CW 2024-01-01 0000 AA1AA 599 001 BB2BB 599 001".data] =
      .ok ([], [⟨⟨2024, 1, 1, 0, 0⟩, "14000".data, "CW".data, "AA1AA".data, "599".data,
        "001".data, "BB2BB".data, "599".data, "001".data⟩]) := by
  refine ⟨fun l => rfl, ?_, line_event_nonevent, ?_, ?_⟩
  · intro h
    obtain ⟨h1, h2⟩ := parse_ok_spec ls false hs qs h
    exact ⟨by simpa using h1, h2⟩
  · intro l rest b hq hlen
    exact ⟨line_event_short l hq hlen, parse_cons_event_short l rest b hq hlen⟩
  · rfl

theorem c7_line_classification_witness :
    parse_cabrillo
        ["NAME: Test".data,
         "QSO: 7000 PH 2024-06-01 1200 AA1AA 59 001 CC3CC 59 002".data] =
      .ok (["NAME: Test".data],
        [⟨⟨2024, 6, 1, 12, 0⟩, "7000".data, "PH".data, "AA1AA".data, "59".data,
          "001".data, "CC3CC".data, "59".data, "002".data⟩]) ∧
    ["NAME: Test".data] =
      (["NAME: Test".data,
        "QSO: 7000 PH 2024-06-01 1200 AA1AA 59 001 CC3CC 59 002".data]).takeWhile
        (fun l => !isQsoLine l) ∧
    [(⟨⟨2024, 6, 1, 12, 0⟩, "7000".data, "PH".data, "AA1AA".data, "59".data,
        "001".data, "CC3CC".data, "59".data, "002".data⟩ : Qso)] =
      (["NAME: Test".data,
        "QSO: 7000 PH 2024-06-01 1200 AA1AA 59 001 CC3CC 59 002".data]).filterMap
        line_event :=
  ⟨rfl,
    (c7_line_classification
      ["NAME: Test".data,
       "QSO: 7000 PH 2024-06-01 1200 AA1AA 59 001 CC3CC 59 002".data]
      ["NAME: Test".data]
      [⟨⟨2024, 6, 1, 12, 0⟩, "7000".data, "PH".data, "AA1AA".data, "59".data,
        "001".data, "CC3CC".data, "59".data, "002".data⟩]).2.1 rfl⟩

/-- C8: a `QSO:` line with at least 10 tokens after the marker whose
date+time do not parse makes the whole parse abort with
`MalformedTimestampError` (no per-line skip); the error propagates to a
session-build failure; and `init_contests` registers exactly the
successfully built sessions, so one failed build is excluded without
affecting the others. -/
theorem c8_malformed_abort (ls : List (List Char)) (files : List (String × ℚ))
    (rec_start contest_start : DateTime) (pre : ℚ) :
    ((∃ l ∈ ls, isQsoLine l = true ∧ ¬ (tokens (trimWs l)).length < 11 ∧
        strptimeDateHM ((tokens (trimWs l)).getD 3 [])
          ((tokens (trimWs l)).getD 4 []) = none) →
      parse_cabrillo ls = .error .malformedTimestamp) ∧
    (parse_cabrillo ls = .error .malformedTimestamp → files.isEmpty = false →
      build_session files ls rec_start contest_start pre =
        .error (.parseError .malformedTimestamp)) ∧
    (∀ (builds : List (String × Except BuildErr Session)) (n : String) (s : Session),
      (n, s) ∈ init_contests builds ↔ (n, .ok s) ∈ builds) := by
  refine ⟨parse_bad_spec ls false, ?_, ?_⟩
  · intro hparse hne
    simp only [build_session, hne, Bool.false_eq_true, if_false, hparse]
  · intro builds n s
    induction builds with
    | nil => simp [init_contests]
    | cons p rest ih =>
      obtain ⟨n2, r2⟩ := p
      cases r2 with
      | ok s2 => simp [init_contests, List.mem_cons, ih, Prod.mk.injEq]
      | error e2 => simp [init_contests, List.mem_cons, ih]

theorem c8_malformed_abort_witness :
    parse_cabrillo
        ["QSO: 21000 CW 2024-02-02 0101 AA1AA 599 001 DD4DD 599 001".data,
         "QSO: 21000 CW 2024-02-02 9999 AA1AA 599 001 DD4DD 599 001".data] =
      .error .malformedTimestamp ∧
    build_session [("day1.mp3", (60 : ℚ))]
        ["QSO: 21000 CW 2024-02-02 0101 AA1AA 599 001 DD4DD 599 001".data,
         "QSO: 21000 CW 2024-02-02 9999 AA1AA 599 001 DD4DD 599 001".data]
        ⟨2024, 2, 2, 0, 0⟩ ⟨2024, 2, 2, 0, 0⟩ 10 =
      .error (.parseError .malformedTimestamp) := by
  have h := c8_malformed_abort
    ["QSO: 21000 CW 2024-02-02 0101 AA1AA 599 001 DD4DD 599 001".data,
     "QSO: 21000 CW 2024-02-02 9999 AA1AA 599 001 DD4DD 599 001".data]
    [("day1.mp3", (60 : ℚ))] ⟨2024, 2, 2, 0, 0⟩ ⟨2024, 2, 2, 0, 0⟩ 10
  have h1 := h.1
    ⟨"QSO: 21000 CW 2024-02-02 9999 AA1AA 599 001 DD4DD 599 001".data,
      by simp, rfl, by decide, rfl⟩
  exact ⟨h1, h.2.1 h1 rfl⟩

theorem tokens_sep (t r : List Char) (ht : IsToken t) :
    tokens (t ++ ' ' :: r) = t :: tokens r := by
  rw [tokens_token_cons t (' ' :: r) ht (Or.inr ⟨' ', r, rfl, by decide⟩),
    tokens_ws_cons ' ' r (by decide)]

theorem wsBdry_rep_cons (k : Nat) (r : List Char) :
    WsBdry (List.replicate k ' ' ++ ' ' :: r) := by
  cases k with
  | zero => exact Or.inr ⟨' ', r, by simp, by decide⟩
  | succ n =>
    exact Or.inr ⟨' ', List.replicate n ' ' ++ ' ' :: r, by simp [List.replicate_succ], by decide⟩

theorem tokens_rjust_sep (t r : List Char) (n : Nat) (ht : IsToken t) :
    tokens (rjust t n ++ ' ' :: r) = t :: tokens r := by
  unfold rjust
  rw [List.append_assoc, tokens_rep, tokens_sep t r ht]

theorem tokens_ljust_sep (t r : List Char) (n : Nat) (ht : IsToken t) :
    tokens (ljust t n ++ ' ' :: r) = t :: tokens r := by
  unfold ljust
  rw [List.append_assoc, tokens_token_cons t _ ht (wsBdry_rep_cons _ r), tokens_rep,
    tokens_ws_cons ' ' r (by decide)]

theorem tokens_ljust_last (t : List Char) (n : Nat) (ht : IsToken t) :
    tokens (ljust t n) = [t] := by
  unfold ljust
  rw [tokens_append_allws t _ (fun c hc => by rw [List.eq_of_mem_replicate hc]; decide)]
  have h2 := tokens_token_cons t [] ht (Or.inl rfl)
  rw [List.append_nil] at h2
  rw [h2]
  rfl

theorem fmtDate_isToken (t : DateTime) : IsToken (fmtDate t) := by
  constructor
  · simp [fmtDate, pad4]
  · intro c hc
    simp only [fmtDate, pad4, pad2, List.mem_append, List.mem_cons, List.not_mem_nil,
      or_false] at hc
    rcases hc with ((rfl | rfl | rfl | rfl) | rfl | rfl | rfl) | rfl | rfl | rfl
    all_goals first | exact isWs_digitChar _ | decide

theorem fmtTimeHM_isToken (t : DateTime) : IsToken (fmtTimeHM t) := by
  constructor
  · simp [fmtTimeHM, pad2]
  · intro c hc
    simp only [fmtTimeHM, pad2, List.mem_append, List.mem_cons, List.not_mem_nil,
      or_false] at hc
    rcases hc with (rfl | rfl) | rfl | rfl
    all_goals exact isWs_digitChar _

theorem isPrefixOf_append_self (p l : List Char) : p.isPrefixOf (p ++ l) = true := by
  induction p with
  | nil => simp [List.isPrefixOf]
  | cons a as ih => simp [List.isPrefixOf, ih]

theorem dropTrailingWs_ne_nil (l : List Char) (h : ∃ c ∈ l, isWs c = false) :
    dropTrailingWs l ≠ [] := by
  unfold dropTrailingWs
  obtain ⟨c, hc, hcw⟩ := h
  intro hcon
  rw [List.reverse_eq_nil_iff, List.dropWhile_eq_nil_iff] at hcon
  exact absurd (hcon c (by simp [hc])) (by simp [hcw])

theorem isQsoLine_marker_append (R : List Char) (hne : ∃ c ∈ R, isWs c = false) :
    isQsoLine (qsoMarker ++ R) = true := by
  unfold isQsoLine trimWs
  have h1 : (qsoMarker ++ R).dropWhile isWs = qsoMarker ++ R := by
    rw [show qsoMarker ++ R = 'Q' :: (['S', 'O', ':'] ++ R) from rfl, List.dropWhile_cons,
      if_neg (by decide)]
  rw [h1, dropTrailingWs_append qsoMarker R (dropTrailingWs_ne_nil R hne)]
  exact isPrefixOf_append_self qsoMarker _

theorem isQsoLine_format (q : Qso) (h : IsToken q.freq) :
    isQsoLine (format_qso_line q) = true := by
  unfold format_qso_line
  simp only [List.append_assoc, List.singleton_append]
  apply isQsoLine_marker_append
  obtain ⟨hne, hws⟩ := h
  rcases hx : q.freq with _ | ⟨c0, cs⟩
  · exact absurd hx hne
  · refine ⟨c0, ?_, hws c0 (by rw [hx]; simp)⟩
    simp [rjust, hx]

theorem tokens_format_qso_line (q : Qso) (h : WfQso q) :
    tokens (trimWs (format_qso_line q)) =
      [qsoMarker, q.freq, q.mode, fmtDate q.datetime, fmtTimeHM q.datetime,
       q.mycall, q.rst_s, q.exch_s, q.hiscall, q.rst_r, q.exch_r] := by
  obtain ⟨hdt, hf, hm, hmy, hrs, hes, hhis, hrr, her⟩ := h
  rw [tokens_trimWs]
  unfold format_qso_line
  simp only [List.append_assoc, List.singleton_append, List.cons_append, List.nil_append]
  have hmk : IsToken qsoMarker := ⟨by decide, by decide⟩
  rw [tokens_sep _ _ hmk,
    tokens_rjust_sep _ _ _ hf, tokens_rjust_sep _ _ _ hm,
    tokens_sep _ _ (fmtDate_isToken _), tokens_sep _ _ (fmtTimeHM_isToken _),
    tokens_ljust_sep _ _ _ hmy, tokens_rjust_sep _ _ _ hrs, tokens_ljust_sep _ _ _ hes,
    tokens_ljust_sep _ _ _ hhis, tokens_rjust_sep _ _ _ hrr, tokens_ljust_last _ _ her]

theorem noNl_token (t : List Char) (ht : IsToken t) : ∀ c ∈ t, c ≠ '\n' := by
  intro c hc he
  subst he
  exact absurd (ht.2 _ hc) (by decide)

theorem noNl_append (a b : List Char) (ha : ∀ c ∈ a, c ≠ '\n') (hb : ∀ c ∈ b, c ≠ '\n') :
    ∀ c ∈ a ++ b, c ≠ '\n' := by
  intro c hc
  rcases List.mem_append.mp hc with h | h
  · exact ha c h
  · exact hb c h

theorem noNl_rjust (t : List Char) (n : Nat) (ht : IsToken t) :
    ∀ c ∈ rjust t n, c ≠ '\n' := by
  intro c hc
  rcases List.mem_append.mp hc with h | h
  · rw [List.eq_of_mem_replicate h]; decide
  · exact noNl_token t ht c h

theorem noNl_ljust (t : List Char) (n : Nat) (ht : IsToken t) :
    ∀ c ∈ ljust t n, c ≠ '\n' := by
  intro c hc
  rcases List.mem_append.mp hc with h | h
  · exact noNl_token t ht c h
  · rw [List.eq_of_mem_replicate h]; decide

theorem noNl_format (q : Qso) (h : WfQso q) : ∀ c ∈ format_qso_line q, c ≠ '\n' := by
  obtain ⟨hdt, hf, hm, hmy, hrs, hes, hhis, hrr, her⟩ := h
  unfold format_qso_line
  refine noNl_append _ _ ?_ (noNl_ljust _ _ her)
  refine noNl_append _ _ ?_ (by decide)
  refine noNl_append _ _ ?_ (noNl_rjust _ _ hrr)
  refine noNl_append _ _ ?_ (by decide)
  refine noNl_append _ _ ?_ (noNl_ljust _ _ hhis)
  refine noNl_append _ _ ?_ (by decide)
  refine noNl_append _ _ ?_ (noNl_ljust _ _ hes)
  refine noNl_append _ _ ?_ (by decide)
  refine noNl_append _ _ ?_ (noNl_rjust _ _ hrs)
  refine noNl_append _ _ ?_ (by decide)
  refine noNl_append _ _ ?_ (noNl_ljust _ _ hmy)
  refine noNl_append _ _ ?_ (by decide)
  refine noNl_append _ _ ?_ (noNl_token _ (fmtTimeHM_isToken _))
  refine noNl_append _ _ ?_ (by decide)
  refine noNl_append _ _ ?_ (noNl_token _ (fmtDate_isToken _))
  refine noNl_append _ _ ?_ (by decide)
  refine noNl_append _ _ ?_ (noNl_rjust _ _ hm)
  refine noNl_append _ _ ?_ (by decide)
  refine noNl_append _ _ ?_ (noNl_rjust _ _ hf)
  refine noNl_append _ _ (by decide) (by decide)

theorem splitLines_no_nl (l : List Char) (h : ∀ c ∈ l, c ≠ '\n') : splitLines l = [l] := by
  induction l with
  | nil => rfl
  | cons c rest ih =>
    have hc : c ≠ '\n' := h c (by simp)
    simp only [splitLines, if_neg hc]
    rw [ih (fun x hx => h x (by simp [hx]))]

theorem splitLines_append_nl (l X : List Char) (h : ∀ c ∈ l, c ≠ '\n') :
    splitLines (l ++ '\n' :: X) = l :: splitLines X := by
  induction l with
  | nil => simp [splitLines]
  | cons c rest ih =>
    have hc : c ≠ '\n' := h c (by simp)
    rw [List.cons_append]
    simp only [splitLines, if_neg hc]
    rw [ih (fun x hx => h x (by simp [hx]))]

theorem splitLines_joinLines (ls : List (List Char))
    (h : ∀ l ∈ ls, ∀ c ∈ l, c ≠ '\n') (hne : ls ≠ []) :
    splitLines (joinLines ls) = ls := by
  induction ls with
  | nil => exact absurd rfl hne
  | cons l rest ih =>
    cases rest with
    | nil => exact splitLines_no_nl l (h l (by simp))
    | cons l2 ls2 =>
      rw [show joinLines (l :: l2 :: ls2) = l ++ '\n' :: joinLines (l2 :: ls2) from rfl,
        splitLines_append_nl l _ (h l (by simp)),
        ih (fun x hx c hc => h x (by simp [hx]) c hc) (by simp)]

theorem splitLines_mem_no_nl (t : List Char) : ∀ l ∈ splitLines t, ∀ c ∈ l, c ≠ '\n' := by
  induction t with
  | nil =>
    intro l hl
    simp only [splitLines, List.mem_singleton] at hl
    subst hl
    simp
  | cons c rest ih =>
    intro l hl
    by_cases hc : c = '\n'
    · subst hc
      rw [show splitLines ('\n' :: rest) = [] :: splitLines rest from by
        simp [splitLines]] at hl
      rcases List.mem_cons.mp hl with rfl | hl
      · simp
      · exact ih l hl
    · simp only [splitLines, if_neg hc] at hl
      cases hsp : splitLines rest with
      | nil =>
        rw [hsp] at hl
        simp only [List.mem_singleton] at hl
        subst hl
        intro x hx
        rcases List.mem_cons.mp hx with rfl | hx
        · exact hc
        · simp at hx
      | cons l0 ls0 =>
        rw [hsp] at hl
        rcases List.mem_cons.mp hl with rfl | hl
        · intro x hx
          rcases List.mem_cons.mp hx with rfl | hx
          · exact hc
          · exact ih l0 (by rw [hsp]; exact List.mem_cons_self _ _) x hx
        · exact ih l (by rw [hsp]; exact List.mem_cons_of_mem _ hl)

theorem parse_nonevent_block (pre rest : List (List Char))
    (h : ∀ l ∈ pre, isQsoLine l = false) :
    parseCabrilloLines (pre ++ rest) false =
      match parseCabrilloLines rest false with
      | .error e => .error e
      | .ok (hs, qs) => .ok (pre ++ hs, qs) := by
  induction pre with
  | nil =>
    cases hr : parseCabrilloLines rest false with
    | error e => simp [hr]
    | ok p => obtain ⟨hs, qs⟩ := p; simp [hr]
  | cons raw pre2 ih =>
    rw [List.cons_append, parse_cons_nonevent raw _ false (h raw (List.mem_cons_self _ _)),
      ih (fun l hl => h l (List.mem_cons_of_mem _ hl))]
    cases hr : parseCabrilloLines rest false with
    | error e => simp [hr]
    | ok p => obtain ⟨hs, qs⟩ := p; simp [hr]

theorem line_event_wf (raw : List Char) (q : Qso) (h : line_event raw = some q) :
    WfQso q := by
  simp only [line_event] at h
  cases hq : isQsoLine raw with
  | false => rw [hq] at h; simp at h
  | true =>
    rw [hq] at h
    simp only [if_true] at h
    by_cases hlen : (tokens (trimWs raw)).length < 11
    · rw [if_pos hlen] at h; simp at h
    · rw [if_neg hlen] at h
      cases hdt : strptimeDateHM ((tokens (trimWs raw)).getD 3 [])
          ((tokens (trimWs raw)).getD 4 []) with
      | none => rw [hdt] at h; simp at h
      | some dt =>
        rw [hdt] at h
        simp only [Option.map_some', Option.some.injEq] at h
        subst h
        have hlen11 : 11 ≤ (tokens (trimWs raw)).length := le_of_not_lt hlen
        have hfield : ∀ i : Nat, i < 11 → IsToken ((tokens (trimWs raw)).getD i []) := by
          intro i hi
          have hil : i < (tokens (trimWs raw)).length := by omega
          rw [List.getD_eq_getElem _ _ hil]
          exact tokens_mem _ _ (List.getElem_mem hil)
        exact ⟨strptime_bounds _ _ dt hdt, hfield 1 (by omega), hfield 2 (by omega),
          hfield 5 (by omega), hfield 6 (by omega), hfield 7 (by omega),
          hfield 8 (by omega), hfield 9 (by omega), hfield 10 (by omega)⟩

theorem parse_formatted_true (qs : List Qso) (h : ∀ q ∈ qs, WfQso q) :
    parseCabrilloLines (qs.map format_qso_line ++ ["END-OF-LOG:".data]) true = .ok ([], qs) := by
  induction qs with
  | nil => rfl
  | cons q qs2 ih =>
    have hwfq := h q (List.mem_cons_self _ _)
    have htok := tokens_format_qso_line q hwfq
    have hq : isQsoLine (format_qso_line q) = true := isQsoLine_format q hwfq.2.1
    have hlen : ¬ (tokens (trimWs (format_qso_line q))).length < 11 := by rw [htok]; simp
    have hdt : strptimeDateHM ((tokens (trimWs (format_qso_line q))).getD 3 [])
        ((tokens (trimWs (format_qso_line q))).getD 4 []) = some q.datetime := by
      rw [htok]
      exact strptime_fmt q.datetime hwfq.1
    have hqso : qsoOfParts q.datetime (tokens (trimWs (format_qso_line q))) = q := by
      rw [htok]
      rcases q with ⟨dt, f, m, my, rs, es, his, rr, er⟩
      simp [qsoOfParts]
    rw [List.map_cons, List.cons_append,
      parse_cons_event_good _ _ true q.datetime hq hlen hdt,
      ih (fun p hp => h p (List.mem_cons_of_mem _ hp)), hqso]

theorem parse_serialized (lines0 : List (List Char)) (qs : List Qso)
    (h0 : ∀ l ∈ lines0, isQsoLine l = false ∧ ∀ c ∈ l, c ≠ '\n')
    (hwf : ∀ q ∈ qs, WfQso q) :
    ∃ hs2, parse_cabrillo_text
        (joinLines (lines0 ++ [[]] ++ qs.map format_qso_line ++ ["END-OF-LOG:".data])) =
      .ok (hs2, qs) := by
  have hnl : ∀ l ∈ lines0 ++ [[]] ++ qs.map format_qso_line ++ ["END-OF-LOG:".data],
      ∀ c ∈ l, c ≠ '\n' := by
    intro l hl
    simp only [List.mem_append, List.mem_singleton, List.mem_map] at hl
    rcases hl with ((hl | rfl) | ⟨q, hq, rfl⟩) | rfl
    · exact (h0 l hl).2
    · simp
    · exact noNl_format q (hwf q hq)
    · decide
  have hne : lines0 ++ [[]] ++ qs.map format_qso_line ++ ["END-OF-LOG:".data] ≠ [] := by
    simp
  unfold parse_cabrillo_text parse_cabrillo
  rw [splitLines_joinLines _ hnl hne]
  have hpre : ∀ l ∈ lines0 ++ [[]], isQsoLine l = false := by
    intro l hl
    rcases List.mem_append.mp hl with hl | hl
    · exact (h0 l hl).1
    · simp only [List.mem_singleton] at hl
      subst hl
      decide
  rw [show lines0 ++ [[]] ++ qs.map format_qso_line ++ ["END-OF-LOG:".data] =
        (lines0 ++ [[]]) ++ (qs.map format_qso_line ++ ["END-OF-LOG:".data]) by
      simp [List.append_assoc]]
  rw [parse_nonevent_block _ _ hpre]
  cases qs with
  | nil =>
    refine ⟨(lines0 ++ [[]]) ++ ["END-OF-LOG:".data], ?_⟩
    rw [show parseCabrilloLines (([] : List Qso).map format_qso_line ++
          ["END-OF-LOG:".data]) false = .ok (["END-OF-LOG:".data], []) from rfl]
  | cons q qs2 =>
    have hwfq := hwf q (List.mem_cons_self _ _)
    have htok := tokens_format_qso_line q hwfq
    have hq : isQsoLine (format_qso_line q) = true := isQsoLine_format q hwfq.2.1
    have hlen : ¬ (tokens (trimWs (format_qso_line q))).length < 11 := by rw [htok]; simp
    have hdt : strptimeDateHM ((tokens (trimWs (format_qso_line q))).getD 3 [])
        ((tokens (trimWs (format_qso_line q))).getD 4 []) = some q.datetime := by
      rw [htok]
      exact strptime_fmt q.datetime hwfq.1
    have hqso : qsoOfParts q.datetime (tokens (trimWs (format_qso_line q))) = q := by
      rw [htok]
      rcases q with ⟨dt, f, m, my, rs, es, his, rr, er⟩
      simp [qsoOfParts]
    rw [List.map_cons, List.cons_append,
      parse_cons_event_good _ _ false q.datetime hq hlen hdt,
      parse_formatted_true qs2 (fun p hp => hwf p (List.mem_cons_of_mem _ hp)), hqso]
    exact ⟨(lines0 ++ [[]]) ++ [], rfl⟩

/-- C6: if a log text parses successfully, serializing its full parsed
event sequence (`build_cabrillo_subset` over the parsed headers and all
events) and re-parsing yields exactly the same event records — every one
of the nine data fields of every event is preserved (the header block may
gain the synthesized `START-OF-LOG:` line and the blank separator). -/
theorem c6_round_trip (t : List Char) (hs : List (List Char)) (qs : List Qso)
    (h : parse_cabrillo_text t = .ok (hs, qs)) :
    ∃ hs2, parse_cabrillo_text (build_cabrillo_subset hs qs) = .ok (hs2, qs) := by
  have h0 := parse_ok_spec (splitLines t) false hs qs h
  simp only [Bool.false_eq_true, if_false] at h0
  obtain ⟨hhs, hqs⟩ := h0
  have hwf : ∀ q ∈ qs, WfQso q := by
    intro q hq
    rw [hqs] at hq
    obtain ⟨l, _, hle⟩ := List.mem_filterMap.mp hq
    exact line_event_wf l q hle
  have hhdr : ∀ l ∈ hs, isQsoLine l = false ∧ ∀ c ∈ l, c ≠ '\n' := by
    intro l hl
    rw [hhs] at hl
    constructor
    · have h2 := List.mem_takeWhile_imp hl
      simpa using h2
    · exact splitLines_mem_no_nl t l ((List.takeWhile_prefix _).subset hl)
  simp only [build_cabrillo_subset]
  by_cases hany : hs.any fun l => startOfLogMarker.isPrefixOf l
  · rw [if_pos hany]
    exact parse_serialized hs qs hhdr hwf
  · rw [if_neg hany]
    refine parse_serialized _ qs ?_ hwf
    intro l hl
    rcases List.mem_cons.mp hl with rfl | hl
    · exact ⟨by decide, by decide⟩
    · exact hhdr l hl

theorem c6_round_trip_witness :
    ∃ hs2, parse_cabrillo_text
        (build_cabrillo_subset ["NAME: W".data]
          [⟨⟨2024, 3, 3, 3, 3⟩, "7000".data, "CW".data, "AA1AA".data, "599".data,
            "001".data, "EE5EE".data, "599".data, "002".data⟩]) =
      .ok (hs2,
        [⟨⟨2024, 3, 3, 3, 3⟩, "7000".data, "CW".data, "AA1AA".data, "599".data,
          "001".data, "EE5EE".data, "599".data, "002".data⟩]) :=
  c6_round_trip
    ("NAME: W\nQSO: 7000 CW 2024-03-03 0303 AA1AA 599 001 EE5EE 599 002").data
    ["NAME: W".data]
    [⟨⟨2024, 3, 3, 3, 3⟩, "7000".data, "CW".data, "AA1AA".data, "599".data,
      "001".data, "EE5EE".data, "599".data, "002".data⟩]
    rfl

theorem c10_contest_view_filter_witness :
    ((⟨⟨2024, 4, 4, 4, 4⟩, "7000".data, "CW".data, "AA1AA".data, "599".data,
        "001".data, "FF6FF".data, "599".data, "003".data⟩ : Qso) ∈
      contest_view
        [⟨⟨2024, 4, 4, 4, 4⟩, "7000".data, "CW".data, "AA1AA".data, "599".data,
          "001".data, "FF6FF".data, "599".data, "003".data⟩] [] [] [] ↔
      (⟨⟨2024, 4, 4, 4, 4⟩, "7000".data, "CW".data, "AA1AA".data, "599".data,
        "001".data, "FF6FF".data, "599".data, "003".data⟩ : Qso) ∈
        [⟨⟨2024, 4, 4, 4, 4⟩, "7000".data, "CW".data, "AA1AA".data, "599".data,
          "001".data, "FF6FF".data, "599".data, "003".data⟩] ∧
      (upperL (trimWs []) ≠ [] →
        substrB (upperL (trimWs []))
          (upperL (⟨⟨2024, 4, 4, 4, 4⟩, "7000".data, "CW".data, "AA1AA".data, "599".data,
            "001".data, "FF6FF".data, "599".data, "003".data⟩ : Qso).mycall) = true ∨
        substrB (upperL (trimWs []))
          (upperL (⟨⟨2024, 4, 4, 4, 4⟩, "7000".data, "CW".data, "AA1AA".data, "599".data,
            "001".data, "FF6FF".data, "599".data, "003".data⟩ : Qso).hiscall) = true) ∧
      (∀ t, timeBound [] = some t →
        dtLtB (⟨⟨2024, 4, 4, 4, 4⟩, "7000".data, "CW".data, "AA1AA".data, "599".data,
          "001".data, "FF6FF".data, "599".data, "003".data⟩ : Qso).datetime t = false) ∧
      (∀ t, timeBound [] = some t →
        dtLtB t (⟨⟨2024, 4, 4, 4, 4⟩, "7000".data, "CW".data, "AA1AA".data, "599".data,
          "001".data, "FF6FF".data, "599".data, "003".data⟩ : Qso).datetime = false)) ∧
    (contest_view
        [⟨⟨2024, 4, 4, 4, 4⟩, "7000".data, "CW".data, "AA1AA".data, "599".data,
          "001".data, "FF6FF".data, "599".data, "003".data⟩] [] [] []).Sublist
      [⟨⟨2024, 4, 4, 4, 4⟩, "7000".data, "CW".data, "AA1AA".data, "599".data,
        "001".data, "FF6FF".data, "599".data, "003".data⟩] ∧
    (timeBound [] = none →
      contest_view
          [⟨⟨2024, 4, 4, 4, 4⟩, "7000".data, "CW".data, "AA1AA".data, "599".data,
            "001".data, "FF6FF".data, "599".data, "003".data⟩] [] [] [] =
        contest_view
          [⟨⟨2024, 4, 4, 4, 4⟩, "7000".data, "CW".data, "AA1AA".data, "599".data,
            "001".data, "FF6FF".data, "599".data, "003".data⟩] [] [] []) :=
  c10_contest_view_filter
    [⟨⟨2024, 4, 4, 4, 4⟩, "7000".data, "CW".data, "AA1AA".data, "599".data,
      "001".data, "FF6FF".data, "599".data, "003".data⟩] [] [] []
    ⟨⟨2024, 4, 4, 4, 4⟩, "7000".data, "CW".data, "AA1AA".data, "599".data,
      "001".data, "FF6FF".data, "599".data, "003".data⟩
